import Mathlib

/-!
Verification of the LZSS compressor in `src/lzss_c.c`.

The C code is embedded shallowly: machine integers become `Nat` with explicit
`% 2 ^ w` at the points where C arithmetic wraps (`uint8_t` accumulators and
counters wrap mod 256, `uint32_t` expressions wrap mod 2 ^ 32), byte buffers
become `List Nat`, and every fallible C function returning `error_t` through
out-parameters becomes a Lean function returning the error code together with
the updated state.  Out-of-bounds buffer accesses, which are undefined
behaviour in C, are modelled with `List.getD _ _ 0` / `List.set` (which is a
no-op past the end); all theorems below only rely on in-bounds executions.
-/

/-- `error_t` from lzss_c.c. -/
inductive Err where
  | allGood
  | noOp
  | bufferOutOfBounds
  | couldNotAllocate
  | wrongOutputSize
deriving DecidableEq, Repr

/-- `array_t`: a byte pointer plus a `uint32_t` length field.  `bytes` is the
underlying allocation; `length` is the length field the C code actually
consults (logical length / capacity handed to `bit_stream_init`). -/
structure ArrayT where
  bytes : List Nat
  length : Nat
deriving DecidableEq, Repr

/-- `bit_stream_t` from lzss_c.c. -/
structure BitStream where
  buffer : List Nat
  buffer_length : Nat
  buffer_position : Nat
  byte_buffer : Nat
  bit_count : Nat
deriving DecidableEq, Repr

/-- `lzss_config_t` from lzss_c.c. -/
structure LzssConfig where
  offset_bits : Nat
  max_offset : Nat
  minimum_length : Nat
  length_bits : Nat
  max_length : Nat
deriving DecidableEq, Repr

/-- `match_t` from lzss_c.c. -/
structure MatchT where
  offset : Nat
  length : Nat
deriving DecidableEq, Repr

/-- `bit_stream_init`. -/
def bit_stream_init (buffer : ArrayT) : BitStream :=
  { buffer := buffer.bytes
    buffer_length := buffer.length
    buffer_position := 0
    byte_buffer := 0
    bit_count := 0 }

/-- `bit_stream_unflush`: pull the next byte of the buffer into the
accumulator (read side). -/
def bit_stream_unflush (s : BitStream) : Err × BitStream :=
  if s.buffer_position < s.buffer_length then
    (.allGood,
      { s with
        byte_buffer := s.buffer.getD s.buffer_position 0
        buffer_position := s.buffer_position + 1
        bit_count := 8 })
  else
    (.bufferOutOfBounds, s)

/-- `bit_stream_flush`: write the accumulator out (write side).  Note the C
code shifts `byte_buffer` left before the bounds check, so on failure the
accumulator has already been shifted (uint8 arithmetic, hence `% 256`). -/
def bit_stream_flush (s : BitStream) : Err × BitStream :=
  if s.bit_count = 0 then
    (.allGood, s)
  else
    let bb := if s.bit_count < 8 then s.byte_buffer * 2 ^ (8 - s.bit_count) % 256
              else s.byte_buffer
    if s.buffer_position ≥ s.buffer_length then
      (.bufferOutOfBounds, { s with byte_buffer := bb })
    else
      (.allGood,
        { s with
          buffer := s.buffer.set s.buffer_position bb
          buffer_position := s.buffer_position + 1
          byte_buffer := 0
          bit_count := 0 })

/-- `bit_stream_read_bit`.  The returned `Nat` is the `*bit` out-parameter
(`(byte_buffer & (1 << bit_count)) > 0`, so 0 or 1); on error the C code
leaves `*bit` untouched and every caller initialises it to 0. -/
def bit_stream_read_bit (s : BitStream) : Err × Nat × BitStream :=
  if s.bit_count = 0 then
    match bit_stream_unflush s with
    | (.allGood, s1) =>
        let s2 := { s1 with bit_count := s1.bit_count - 1 }
        (.allGood, if s2.byte_buffer.testBit s2.bit_count then 1 else 0, s2)
    | (e, s1) => (e, 0, s1)
  else
    let s2 := { s with bit_count := s.bit_count - 1 }
    (.allGood, if s2.byte_buffer.testBit s2.bit_count then 1 else 0, s2)

/-- `bit_stream_write_bit`.  `byte_buffer` and `bit_count` are `uint8_t`:
the shifted accumulator wraps mod 256 and `bit_count + 1` wraps mod 256
(which is observable: after a failed flush `bit_count` is 8 and keeps
growing). -/
def bit_stream_write_bit (s : BitStream) (bit : Nat) : Err × BitStream :=
  let s1 := { s with
    byte_buffer := s.byte_buffer * 2 % 256 + bit % 2
    bit_count := (s.bit_count + 1) % 256 }
  if s1.bit_count = 8 then bit_stream_flush s1 else (.allGood, s1)

/-- Loop body of `bit_stream_read_uint32`: reads the remaining `bits` bits
MSB-first into the accumulator `value` (uint32, so shifts wrap mod 2^32;
`value |= bit & 1` ORs into the even shifted value, i.e. adds `bit % 2`). -/
def bit_stream_read_uint32_loop (s : BitStream) (value : Nat) : Nat → Err × Nat × BitStream
  | 0 => (.allGood, value, s)
  | bits + 1 =>
    match bit_stream_read_bit s with
    | (.allGood, bit, s1) =>
        bit_stream_read_uint32_loop s1 (value * 2 % 4294967296 + bit % 2) bits
    | (e, _, s1) => (e, 0, s1)

/-- `bit_stream_read_uint32`: reads `bits` bits MSB-first.  On error the
out-parameter keeps its caller-side initial value 0. -/
def bit_stream_read_uint32 (s : BitStream) (bits : Nat) : Err × Nat × BitStream :=
  bit_stream_read_uint32_loop s 0 bits

/-- `bit_stream_write_uint32`: writes the low `bits` bits of `number`,
most significant first (`(number & (1 << (bits-1))) > 0`). -/
def bit_stream_write_uint32 (s : BitStream) (number : Nat) : Nat → Err × BitStream
  | 0 => (.allGood, s)
  | bits + 1 =>
    match bit_stream_write_bit s (if number.testBit bits then 1 else 0) with
    | (.allGood, s1) => bit_stream_write_uint32 s1 number bits
    | (e, s1) => (e, s1)

/-- Loop of `bit_stream_read_7bit_uint32`.  `n |= (byte & 127) << shift` is
uint32 arithmetic, hence the `% 4294967296` on the shifted group; the loop
breaks when the continuation bit (`byte & 128`) is clear or `shift > 32`. -/
def bit_stream_read_7bit_loop (s : BitStream) (n shift : Nat) : Err × Nat × BitStream :=
  match bit_stream_read_uint32 s 8 with
  | (.allGood, byte, s1) =>
      let n1 := n ||| (byte &&& 127) * 2 ^ shift % 4294967296
      if byte &&& 128 = 0 ∨ shift + 7 > 32 then (.allGood, n1, s1)
      else bit_stream_read_7bit_loop s1 n1 (shift + 7)
  | (e, _, s1) => (e, 0, s1)
termination_by 33 - shift
decreasing_by omega

/-- `bit_stream_read_7bit_uint32`. -/
def bit_stream_read_7bit_uint32 (s : BitStream) : Err × Nat × BitStream :=
  bit_stream_read_7bit_loop s 0 0

/-- `bit_stream_write_7bit_uint32`.  Faithful to the C code: the `while`
loop propagates write errors, but the error of the final byte write (under
`if (n > 0)`, commented "This check is probably not required.") is
DISCARDED — the function returns `error` from the loop, which is
`ERROR_ALL_GOOD` when the loop finished.  In particular the value 0 writes
no byte at all. -/
def bit_stream_write_7bit_uint32 (s : BitStream) (number : Nat) : Err × BitStream :=
  if number > 127 then
    match bit_stream_write_uint32 s (128 ||| number &&& 127) 8 with
    | (.allGood, s1) => bit_stream_write_7bit_uint32 s1 (number / 128)
    | (e, s1) => (e, s1)
  else if number > 0 then
    (.allGood, (bit_stream_write_uint32 s (number &&& 127) 8).2)
  else
    (.allGood, s)
termination_by number
decreasing_by exact Nat.div_lt_self (by omega) (by omega)

/-- `lzss_config_init`.  `(1 << offset_bits) - 1` in C; for the
`offset_bits + length_bits ≤ 31` configurations the claims quantify over
this equals `2 ^ offset_bits - 1` exactly. -/
def lzss_config_init (offset_bits length_bits minimum_length : Nat) : LzssConfig :=
  { offset_bits := offset_bits
    max_offset := 2 ^ offset_bits - 1
    minimum_length := minimum_length
    length_bits := length_bits
    max_length := 2 ^ length_bits - 1 }

/-- `lzss_get_upper_bound`.  `32 + input_length * 9` is uint32 arithmetic. -/
def lzss_get_upper_bound (input_length : Nat) : Nat :=
  let total_bits := (32 + input_length * 9) % 4294967296
  total_bits / 8 + (if total_bits % 8 > 0 then 1 else 0)

/-- `lzss_get_original_length`. -/
def lzss_get_original_length (input : ArrayT) : Err × Nat :=
  let r := bit_stream_read_7bit_uint32 (bit_stream_init input)
  match r.1 with
  | .allGood => (.allGood, r.2.1)
  | e => (e, 0)

/-- Inner `while` of `__get_longest_match`: length of the common run of
bytes starting at `off` and `idx`, both runs staying below `n`
(`input.length`). -/
def run_len (bytes : List Nat) (n off idx : Nat) : Nat :=
  if off < n ∧ idx < n ∧ bytes.getD off 0 = bytes.getD idx 0 then
    1 + run_len bytes n (off + 1) (idx + 1)
  else 0
termination_by n - idx
decreasing_by omega

/-- Outer `while` of `__get_longest_match`: sweep candidate offsets upward,
keeping the best run; ties (`length >= best_length`) go to the later
candidate. -/
def match_scan (bytes : List Nat) (n idx off best_off best_len : Nat) : Nat × Nat :=
  if off < idx ∧ off < n then
    let len := run_len bytes n off idx
    if len ≥ best_len then match_scan bytes n idx (off + 1) off len
    else match_scan bytes n idx (off + 1) best_off best_len
  else (best_off, best_len)
termination_by idx - off
decreasing_by all_goals omega

/-- `__get_longest_match`. -/
def get_longest_match (config : LzssConfig) (input : ArrayT) (index : Nat) : MatchT :=
  if index + config.minimum_length ≥ input.length then
    { offset := 0, length := 0 }
  else
    let start := if config.max_offset > index then 0 else index - config.max_offset
    let r := match_scan input.bytes input.length index start 0 0
    { offset := index - r.1, length := min r.2 config.max_length }

/-- Encoding loop of `lzss_encode` (the `for (index …)` loop).  The C loop
has no fuel: it advances `index` by `match.length ≥ minimum_length` or by 1,
so with `minimum_length ≥ 1` it performs at most `input.length` iterations
and any `fuel ≥ input.length` reproduces it exactly (with
`minimum_length = 0` the C loop can diverge; running out of fuel returns
like the normal exit, a case no theorem below relies on). -/
def lzss_encode_loop (config : LzssConfig) (input : ArrayT) :
    Nat → Nat → BitStream → Err × BitStream
  | _, 0, s => (.allGood, s)
  | index, fuel + 1, s =>
    if index < input.length then
      let m := get_longest_match config input index
      if m.length ≥ config.minimum_length then
        match bit_stream_write_bit s 1 with
        | (.allGood, s1) =>
          match bit_stream_write_uint32 s1 m.offset config.offset_bits with
          | (.allGood, s2) =>
            match bit_stream_write_uint32 s2 m.length config.length_bits with
            | (.allGood, s3) => lzss_encode_loop config input (index + m.length) fuel s3
            | (e, s3) => (e, s3)
          | (e, s2) => (e, s2)
        | (e, s1) => (e, s1)
      else
        match bit_stream_write_bit s 0 with
        | (.allGood, s1) =>
          match bit_stream_write_uint32 s1 (input.bytes.getD index 0) 8 with
          | (.allGood, s2) => lzss_encode_loop config input (index + 1) fuel s2
          | (e, s2) => (e, s2)
        | (e, s1) => (e, s1)
    else (.allGood, s)

/-- `lzss_encode`.  On the error path the C code sets `output->length = 0`
(the buffer keeps whatever was partially written); on success
`output->length = stream.buffer_position`. -/
def lzss_encode (config : LzssConfig) (input : ArrayT) (output : ArrayT) : Err × ArrayT :=
  if input.length = 0 then (.noOp, output)
  else
    match bit_stream_write_7bit_uint32 (bit_stream_init output) input.length with
    | (.allGood, s1) =>
      match lzss_encode_loop config input 0 input.length s1 with
      | (.allGood, s2) =>
        match bit_stream_flush s2 with
        | (.allGood, s3) => (.allGood, { bytes := s3.buffer, length := s3.buffer_position })
        | (e, s3) => (e, { bytes := s3.buffer, length := 0 })
      | (e, s2) => (e, { bytes := s2.buffer, length := 0 })
    | (e, s1) => (e, { bytes := s1.buffer, length := 0 })

/-- Copy loop of the decoder's pair branch: strictly increasing `i`, one
byte at a time (`output[dst + i] = output[src + i]`). -/
def decode_copy (out : List Nat) (src dst : Nat) : Nat → List Nat
  | 0 => out
  | len + 1 => decode_copy (out.set dst (out.getD src 0)) (src + 1) (dst + 1) len

/-- Decoding loop of `lzss_decode`.  `index - offset` is uint32 arithmetic
(wraps mod 2^32 when `offset > index`, which only happens on corrupt
input); fuel as in `lzss_encode_loop` (each terminating C iteration
advances `index` by ≥ 1, so `fuel = output.length` is enough; a
length-0 pair token makes the C loop diverge). -/
def lzss_decode_loop (config : LzssConfig) (outLen : Nat) :
    Nat → Nat → BitStream → List Nat → Err × BitStream × List Nat
  | _, 0, s, out => (.allGood, s, out)
  | index, fuel + 1, s, out =>
    if index < outLen then
      match bit_stream_read_bit s with
      | (.allGood, is_pair, s1) =>
        if is_pair ≠ 0 then
          match bit_stream_read_uint32 s1 config.offset_bits with
          | (.allGood, offset, s2) =>
            match bit_stream_read_uint32 s2 config.length_bits with
            | (.allGood, length, s3) =>
                lzss_decode_loop config outLen (index + length) fuel s3
                  (decode_copy out ((index + 4294967296 - offset) % 4294967296) index length)
            | (e, _, s3) => (e, s3, out)
          | (e, _, s2) => (e, s2, out)
        else
          match bit_stream_read_uint32 s1 8 with
          | (.allGood, literal, s2) =>
              lzss_decode_loop config outLen (index + 1) fuel s2
                (out.set index (literal % 256))
          | (e, _, s2) => (e, s2, out)
      | (e, _, s1) => (e, s1, out)
    else (.allGood, s, out)

/-- `lzss_decode`. -/
def lzss_decode (config : LzssConfig) (input : ArrayT) (output : ArrayT) : Err × ArrayT :=
  if input.length = 0 ∨ output.length = 0 then (.noOp, output)
  else
    match bit_stream_read_7bit_uint32 (bit_stream_init input) with
    | (.allGood, original_size, s1) =>
      if original_size ≠ output.length then (.wrongOutputSize, output)
      else
        let r := lzss_decode_loop config output.length 0 output.length s1 output.bytes
        (r.1, { output with bytes := r.2.2 })
    | (e, _, _) => (e, output)

/-! ### Bit-list abstraction

A `BitStream` used for writing denotes the list of bits written so far
(`wBits`); one used for reading denotes a cursor (`consumed`) into the bit
expansion of its buffer (`streamBits`).  Bits inside a byte are MSB-first,
matching the code. -/

/-- The low `w` bits of `v`, most significant first. -/
def natBitsBE (v : Nat) : Nat → List Bool
  | 0 => []
  | w + 1 => v.testBit w :: natBitsBE v w

/-- The 8 bits of a byte, MSB first. -/
def byteBits (b : Nat) : List Bool := natBitsBE b 8

/-- MSB-first bit expansion of a byte list. -/
def bytesBits : List Nat → List Bool
  | [] => []
  | b :: l => byteBits b ++ bytesBits l

/-- Value of a bit list read MSB-first. -/
def bitsToNat : List Bool → Nat
  | [] => 0
  | b :: bs => (if b then 1 else 0) * 2 ^ bs.length + bitsToNat bs

theorem length_natBitsBE (v w : Nat) : (natBitsBE v w).length = w := by
  induction w with
  | zero => rfl
  | succ w ih => simp [natBitsBE, ih]

theorem length_byteBits (b : Nat) : (byteBits b).length = 8 := by
  simp [byteBits, length_natBitsBE]

theorem length_bytesBits (l : List Nat) : (bytesBits l).length = 8 * l.length := by
  induction l with
  | nil => rfl
  | cons b l ih => simp [bytesBits, length_byteBits, ih]; ring

theorem bytesBits_append (l1 l2 : List Nat) :
    bytesBits (l1 ++ l2) = bytesBits l1 ++ bytesBits l2 := by
  induction l1 with
  | nil => rfl
  | cons b l ih => simp [bytesBits, ih]

theorem bitsToNat_lt (bs : List Bool) : bitsToNat bs < 2 ^ bs.length := by
  induction bs with
  | nil => simp [bitsToNat]
  | cons b bs ih =>
      simp only [bitsToNat, List.length_cons, pow_succ]
      cases b <;> simp <;> omega

theorem bitsToNat_append (xs ys : List Bool) :
    bitsToNat (xs ++ ys) = bitsToNat xs * 2 ^ ys.length + bitsToNat ys := by
  induction xs with
  | nil => simp [bitsToNat]
  | cons b xs ih =>
      show bitsToNat (b :: (xs ++ ys)) = _
      simp only [bitsToNat, List.length_append, ih, pow_add]
      ring

theorem bitsToNat_natBitsBE (v w : Nat) : bitsToNat (natBitsBE v w) = v % 2 ^ w := by
  induction w with
  | zero => simp [natBitsBE, bitsToNat, Nat.mod_one]
  | succ w ih =>
      simp only [natBitsBE, bitsToNat, length_natBitsBE, ih]
      rw [Nat.testBit_to_div_mod, pow_succ, Nat.mod_mul]
      rcases Nat.mod_two_eq_zero_or_one (v / 2 ^ w) with hb | hb
      · simp [hb]
      · simp [hb]
        omega

theorem bitsToNat_natBitsBE_of_lt {v w : Nat} (h : v < 2 ^ w) :
    bitsToNat (natBitsBE v w) = v := by
  rw [bitsToNat_natBitsBE, Nat.mod_eq_of_lt h]

theorem natBitsBE_snoc (v e w : Nat) (he : e < 2) :
    natBitsBE (2 * v + e) (w + 1) = natBitsBE v w ++ [decide (e = 1)] := by
  induction w with
  | zero =>
      simp only [natBitsBE, Nat.testBit_zero]
      have : (2 * v + e) % 2 = e := by omega
      simp [this]
  | succ w ih =>
      have hdiv : (2 * v + e) / 2 = v := by omega
      show (2 * v + e).testBit (w + 1) :: natBitsBE (2 * v + e) (w + 1) = _
      rw [Nat.testBit_add_one, hdiv, ih]
      rfl

theorem natBitsBE_mul_pow (v w k : Nat) :
    natBitsBE (v * 2 ^ k) (w + k) = natBitsBE v w ++ List.replicate k false := by
  induction k with
  | zero => simp [natBitsBE]
  | succ k ih =>
      have h1 : v * 2 ^ (k + 1) = 2 * (v * 2 ^ k) + 0 := by ring
      have h2 : w + (k + 1) = (w + k) + 1 := by ring
      rw [h2, h1, natBitsBE_snoc _ _ _ (by omega), ih]
      simp [List.replicate_succ' (n := k)]

/-! ### Write-side stream specification -/

/-- Well-formedness of a write-side stream: the accumulator holds
`bit_count ≤ 7` bits, and the cursor is within the buffer.  Every state
reachable by successful writes from a fresh stream satisfies this. -/
def WfW (s : BitStream) : Prop :=
  s.bit_count ≤ 7 ∧ s.byte_buffer < 2 ^ s.bit_count ∧
  s.buffer_position ≤ s.buffer_length ∧ s.buffer_length ≤ s.buffer.length

/-- The bits a write-side stream has accepted so far: the flushed bytes
followed by the accumulator contents. -/
def wBits (s : BitStream) : List Bool :=
  bytesBits (s.buffer.take s.buffer_position) ++ natBitsBE s.byte_buffer s.bit_count

/-- Number of bits accepted so far. -/
def wLen (s : BitStream) : Nat := 8 * s.buffer_position + s.bit_count

theorem take_succ_set {α : Type} (l : List α) (i : Nat) (v : α) (h : i < l.length) :
    (l.set i v).take (i + 1) = l.take i ++ [v] := by
  induction l generalizing i with
  | nil => simp at h
  | cons a l ih =>
      cases i with
      | zero => simp
      | succ i =>
          simp only [List.set_cons_succ, List.take_succ_cons, List.cons_append, List.cons.injEq,
            true_and]
          exact ih i (by simpa using h)

theorem write_bit_ok (s : BitStream) (b : Nat) (hw : WfW s)
    (h : wLen s ≠ 8 * s.buffer_length + 7) :
    (bit_stream_write_bit s b).1 = .allGood ∧
    WfW (bit_stream_write_bit s b).2 ∧
    wBits (bit_stream_write_bit s b).2 = wBits s ++ [decide (b % 2 = 1)] ∧
    wLen (bit_stream_write_bit s b).2 = wLen s + 1 ∧
    (bit_stream_write_bit s b).2.buffer_length = s.buffer_length ∧
    (bit_stream_write_bit s b).2.buffer.length = s.buffer.length := by
  obtain ⟨hc, hb, hp, hl⟩ := hw
  have hpow : (2 : Nat) ^ s.bit_count ≤ 2 ^ 7 := Nat.pow_le_pow_right (by omega) hc
  have hbt : b % 2 < 2 := Nat.mod_lt _ (by omega)
  have hbb : s.byte_buffer * 2 % 256 = s.byte_buffer * 2 := Nat.mod_eq_of_lt (by omega)
  have hsnoc : natBitsBE (s.byte_buffer * 2 % 256 + b % 2) (s.bit_count + 1)
      = natBitsBE s.byte_buffer s.bit_count ++ [decide (b % 2 = 1)] := by
    rw [hbb, Nat.mul_comm]
    exact natBitsBE_snoc _ _ _ hbt
  rcases Nat.lt_or_ge s.bit_count 7 with h7 | h7
  · -- no flush
    have hcnt : (s.bit_count + 1) % 256 = s.bit_count + 1 := Nat.mod_eq_of_lt (by omega)
    have hres : bit_stream_write_bit s b = (.allGood,
        { s with byte_buffer := s.byte_buffer * 2 % 256 + b % 2,
                 bit_count := (s.bit_count + 1) % 256 }) := by
      unfold bit_stream_write_bit
      simp only [hcnt]
      rw [if_neg (by omega)]
    rw [hres]
    refine ⟨rfl, ⟨?_, ?_, hp, hl⟩, ?_, ?_, rfl, rfl⟩
    · simp only [hcnt]; omega
    · simp only [hcnt, pow_succ]; omega
    · simp only [wBits, hcnt, hsnoc, List.append_assoc]
    · simp only [wLen, hcnt]; omega
  · -- bit_count = 7: flush happens and succeeds
    have hc7 : s.bit_count = 7 := by omega
    have hpos : s.buffer_position < s.buffer_length := by
      simp only [wLen, hc7] at h; omega
    have hres : bit_stream_write_bit s b = (.allGood,
        { s with buffer := s.buffer.set s.buffer_position (s.byte_buffer * 2 % 256 + b % 2),
                 buffer_position := s.buffer_position + 1,
                 byte_buffer := 0,
                 bit_count := 0 }) := by
      unfold bit_stream_write_bit bit_stream_flush
      simp only [hc7]
      norm_num [hpos]
    rw [hres]
    refine ⟨rfl, ⟨by simp, by simp, by simp; omega, by simp; omega⟩, ?_, ?_, rfl, by simp⟩
    · simp only [wBits, natBitsBE]
      rw [take_succ_set _ _ _ (by omega), bytesBits_append]
      simp only [bytesBits, List.append_nil, List.append_assoc]
      congr 1
      rw [← hsnoc, hc7]
      rfl
    · simp only [wLen, hc7]; omega

theorem write_bit_fail (s : BitStream) (b : Nat) (hw : WfW s)
    (h : wLen s = 8 * s.buffer_length + 7) :
    bit_stream_write_bit s b =
      (.bufferOutOfBounds,
        { s with byte_buffer := s.byte_buffer * 2 % 256 + b % 2, bit_count := 8 }) := by
  obtain ⟨hc, hb, hp, hl⟩ := hw
  have hc7 : s.bit_count = 7 := by simp only [wLen] at h; omega
  have hpos : s.buffer_position = s.buffer_length := by simp only [wLen] at h; omega
  unfold bit_stream_write_bit bit_stream_flush
  simp only [hc7]
  norm_num [hpos]

theorem write_uint32_ok (w : Nat) : ∀ (s : BitStream) (number : Nat), WfW s →
    wLen s + w ≤ 8 * s.buffer_length + 7 →
    (bit_stream_write_uint32 s number w).1 = .allGood ∧
    WfW (bit_stream_write_uint32 s number w).2 ∧
    wBits (bit_stream_write_uint32 s number w).2 = wBits s ++ natBitsBE number w ∧
    wLen (bit_stream_write_uint32 s number w).2 = wLen s + w ∧
    (bit_stream_write_uint32 s number w).2.buffer_length = s.buffer_length ∧
    (bit_stream_write_uint32 s number w).2.buffer.length = s.buffer.length := by
  induction w with
  | zero =>
      intro s number hw _
      exact ⟨rfl, hw, by simp [bit_stream_write_uint32, natBitsBE], by simp [bit_stream_write_uint32], rfl, rfl⟩
  | succ w ih =>
      intro s number hw hcap
      have hdec : decide ((if number.testBit w then 1 else 0) % 2 = 1) = number.testBit w := by
        cases h : number.testBit w <;> simp
      rcases hrw : bit_stream_write_bit s (if number.testBit w then 1 else 0) with ⟨e, s1⟩
      have hok := write_bit_ok s (if number.testBit w then 1 else 0) hw (by omega)
      rw [hrw] at hok
      obtain ⟨he, hw1, hbits1, hlen1, hbl1, hll1⟩ := hok
      simp only at he hbits1 hlen1 hbl1 hll1
      subst he
      have hres : bit_stream_write_uint32 s number (w + 1)
          = bit_stream_write_uint32 s1 number w := by
        show (match bit_stream_write_bit s (if number.testBit w then 1 else 0) with
          | (.allGood, s1) => bit_stream_write_uint32 s1 number w
          | (e, s1) => (e, s1)) = _
        rw [hrw]
      rw [hres]
      obtain ⟨h1, h2, h3, h4, h5, h6⟩ := ih s1 number hw1 (by omega)
      refine ⟨h1, h2, ?_, by omega, by rw [h5, hbl1], by rw [h6, hll1]⟩
      rw [h3, hbits1, hdec]
      simp [natBitsBE]

theorem flush_ok (s : BitStream) (hw : WfW s) (h : wLen s ≤ 8 * s.buffer_length) :
    (bit_stream_flush s).1 = .allGood ∧
    (bit_stream_flush s).2.bit_count = 0 ∧
    (bit_stream_flush s).2.buffer_length = s.buffer_length ∧
    (bit_stream_flush s).2.buffer.length = s.buffer.length ∧
    (bit_stream_flush s).2.buffer_position ≤ s.buffer_length ∧
    8 * (bit_stream_flush s).2.buffer_position = wLen s + (8 - wLen s % 8) % 8 ∧
    bytesBits ((bit_stream_flush s).2.buffer.take (bit_stream_flush s).2.buffer_position)
      = wBits s ++ List.replicate ((8 - wLen s % 8) % 8) false := by
  obtain ⟨hc, hb, hp, hl⟩ := hw
  have hmod : wLen s % 8 = s.bit_count := by
    simp only [wLen]
    omega
  rcases Nat.eq_zero_or_pos s.bit_count with h0 | h0
  · have hres : bit_stream_flush s = (.allGood, s) := by
      unfold bit_stream_flush
      rw [if_pos h0]
    rw [hres]
    refine ⟨rfl, h0, rfl, rfl, hp, by simp [hmod, h0, wLen], ?_⟩
    simp [hmod, h0, wBits, natBitsBE]
  · have hpos : s.buffer_position < s.buffer_length := by
      simp only [wLen] at h
      omega
    have hshift : s.byte_buffer * 2 ^ (8 - s.bit_count) % 256
        = s.byte_buffer * 2 ^ (8 - s.bit_count) := by
      apply Nat.mod_eq_of_lt
      have h1 : s.byte_buffer * 2 ^ (8 - s.bit_count) < 2 ^ s.bit_count * 2 ^ (8 - s.bit_count) :=
        (Nat.mul_lt_mul_right (Nat.two_pow_pos _)).mpr hb
      have h2 : (2 : Nat) ^ s.bit_count * 2 ^ (8 - s.bit_count) = 2 ^ 8 := by
        rw [← pow_add]
        congr 1
        omega
      omega
    have hres : bit_stream_flush s = (.allGood,
        { s with buffer := s.buffer.set s.buffer_position
                   (s.byte_buffer * 2 ^ (8 - s.bit_count) % 256),
                 buffer_position := s.buffer_position + 1,
                 byte_buffer := 0,
                 bit_count := 0 }) := by
      have h1 : ¬ (s.bit_count = 0) := by omega
      have h2 : s.bit_count < 8 := by omega
      have h3 : ¬ (s.buffer_position ≥ s.buffer_length) := by omega
      simp [bit_stream_flush, h1, h2, h3]
    rw [hres]
    refine ⟨rfl, rfl, rfl, by simp, ?_, ?_, ?_⟩
    · show s.buffer_position + 1 ≤ s.buffer_length
      omega
    · show 8 * (s.buffer_position + 1) = wLen s + (8 - wLen s % 8) % 8
      simp only [wLen]
      omega
    simp only []
    rw [take_succ_set _ _ _ (by omega), bytesBits_append]
    simp only [bytesBits, List.append_nil, wBits, List.append_assoc, hmod]
    congr 1
    rw [hshift]
    have key := natBitsBE_mul_pow s.byte_buffer s.bit_count (8 - s.bit_count)
    rw [show s.bit_count + (8 - s.bit_count) = 8 from by omega] at key
    rw [show (8 - s.bit_count) % 8 = 8 - s.bit_count from Nat.mod_eq_of_lt (by omega)]
    exact key

/-! ### VLQ bytes -/

/-- The byte sequence `bit_stream_write_7bit_uint32` emits for a value
(little-endian 7-bit groups, continuation flag in bit 7; the value 0 emits
nothing — see the `if (n > 0)` guard in the C code). -/
def vlqBytes (n : Nat) : List Nat :=
  if n > 127 then (128 ||| n &&& 127) :: vlqBytes (n / 128)
  else if n > 0 then [n &&& 127] else []
termination_by n
decreasing_by exact Nat.div_lt_self (by omega) (by omega)

theorem and_127_eq_mod (n : Nat) : n &&& 127 = n % 128 := by
  have h := Nat.and_pow_two_sub_one_eq_mod n 7
  norm_num at h
  exact h

theorem or_128_eq_add {m : Nat} (h : m < 128) : 128 ||| m = 128 + m := by
  have key := Nat.mul_add_lt_is_or (b := m) (i := 7) (by norm_num [h]) 1
  norm_num at key
  omega

theorem vlqBytes_len_le (k : Nat) : ∀ n, n < 2 ^ (7 * k) → (vlqBytes n).length ≤ k := by
  induction k with
  | zero =>
      intro n hn
      have : n = 0 := by norm_num at hn; omega
      subst this
      simp [vlqBytes]
  | succ k ih =>
      intro n hn
      unfold vlqBytes
      rcases Nat.lt_or_ge 127 n with h | h
      · rw [if_pos h]
        have hdiv : n / 128 < 2 ^ (7 * k) := by
          apply Nat.div_lt_of_lt_mul
          calc n < 2 ^ (7 * (k + 1)) := hn
          _ = 2 ^ (7 * k) * 128 := by rw [Nat.mul_succ, pow_add]; norm_num
          _ = 128 * 2 ^ (7 * k) := by ring
        simpa using ih (n / 128) hdiv
      · rw [if_neg (by omega)]
        split <;> simp

theorem vlqBytes_len_pos {n : Nat} (h : 0 < n) : 1 ≤ (vlqBytes n).length := by
  rcases Nat.lt_or_ge 127 n with h1 | h1
  · unfold vlqBytes
    rw [if_pos h1]
    simp
  · unfold vlqBytes
    rw [if_neg (by omega), if_pos h]
    simp

theorem write_7bit_ok (n : Nat) : ∀ (s : BitStream), WfW s →
    wLen s + 8 * (vlqBytes n).length ≤ 8 * s.buffer_length + 7 →
    (bit_stream_write_7bit_uint32 s n).1 = .allGood ∧
    WfW (bit_stream_write_7bit_uint32 s n).2 ∧
    wBits (bit_stream_write_7bit_uint32 s n).2 = wBits s ++ bytesBits (vlqBytes n) ∧
    wLen (bit_stream_write_7bit_uint32 s n).2 = wLen s + 8 * (vlqBytes n).length ∧
    (bit_stream_write_7bit_uint32 s n).2.buffer_length = s.buffer_length ∧
    (bit_stream_write_7bit_uint32 s n).2.buffer.length = s.buffer.length := by
  induction n using Nat.strong_induction_on with
  | _ n ih =>
    intro s hw hcap
    rcases Nat.lt_or_ge 127 n with h127 | h127
    · -- continuation byte then recurse
      have hvb : vlqBytes n = (128 ||| n &&& 127) :: vlqBytes (n / 128) := by
        conv_lhs => rw [vlqBytes]
        rw [if_pos h127]
      rw [hvb] at hcap
      simp only [List.length_cons] at hcap
      rcases hrw : bit_stream_write_uint32 s (128 ||| n &&& 127) 8 with ⟨e, s1⟩
      have hok := write_uint32_ok 8 s (128 ||| n &&& 127) hw (by omega)
      rw [hrw] at hok
      obtain ⟨he, hw1, hbits1, hlen1, hbl1, hll1⟩ := hok
      simp only at he hbits1 hlen1 hbl1 hll1
      subst he
      have hres : bit_stream_write_7bit_uint32 s n = bit_stream_write_7bit_uint32 s1 (n / 128) := by
        conv_lhs => rw [bit_stream_write_7bit_uint32]
        rw [if_pos h127, hrw]
      rw [hres]
      obtain ⟨h1, h2, h3, h4, h5, h6⟩ :=
        ih (n / 128) (Nat.div_lt_self (by omega) (by omega)) s1 hw1 (by omega)
      refine ⟨h1, h2, ?_, ?_, by rw [h5, hbl1], by rw [h6, hll1]⟩
      · rw [h3, hbits1, hvb]
        simp only [bytesBits, byteBits, List.append_assoc]
      · rw [h4, hlen1, hvb]
        simp only [List.length_cons]
        omega
    · rcases Nat.eq_zero_or_pos n with h0 | h0
      · subst h0
        have hres : bit_stream_write_7bit_uint32 s 0 = (.allGood, s) := by
          unfold bit_stream_write_7bit_uint32
          norm_num
        rw [hres]
        exact ⟨rfl, hw, by simp [vlqBytes, bytesBits], by simp [vlqBytes], rfl, rfl⟩
      · -- single final byte
        have hvb : vlqBytes n = [n &&& 127] := by
          conv_lhs => rw [vlqBytes]
          rw [if_neg (by omega), if_pos h0]
        rw [hvb] at hcap
        simp only [List.length_cons, List.length_nil] at hcap
        rcases hrw : bit_stream_write_uint32 s (n &&& 127) 8 with ⟨e, s1⟩
        have hok := write_uint32_ok 8 s (n &&& 127) hw (by omega)
        rw [hrw] at hok
        obtain ⟨he, hw1, hbits1, hlen1, hbl1, hll1⟩ := hok
        simp only at he hbits1 hlen1 hbl1 hll1
        subst he
        have hres : bit_stream_write_7bit_uint32 s n = (.allGood, s1) := by
          conv_lhs => rw [bit_stream_write_7bit_uint32]
          rw [if_neg (by omega), if_pos h0, hrw]
        rw [hres]
        refine ⟨rfl, hw1, ?_, ?_, hbl1, hll1⟩
        · rw [show (Err.allGood, s1).2 = s1 from rfl, hbits1, hvb]
          simp [bytesBits, byteBits]
        · rw [hvb]
          show wLen s1 = wLen s + 8 * [n &&& 127].length
          simp only [List.length_cons, List.length_nil]
          omega

/-! ### Read-side stream specification -/

/-- Well-formedness of a read-side stream: when bits remain in the
accumulator it holds the byte just before the cursor. -/
def WfR (s : BitStream) : Prop :=
  s.bit_count ≤ 8 ∧ s.buffer_position ≤ s.buffer_length ∧
  s.buffer_length ≤ s.buffer.length ∧
  (0 < s.bit_count →
    1 ≤ s.buffer_position ∧ s.byte_buffer = s.buffer.getD (s.buffer_position - 1) 0)

/-- The bit expansion of the readable part of the buffer. -/
def streamBits (s : BitStream) : List Bool := bytesBits (s.buffer.take s.buffer_length)

/-- Number of bits consumed so far by a read-side stream. -/
def consumed (s : BitStream) : Nat := 8 * s.buffer_position - s.bit_count

theorem getD_append_left {α : Type} (xs ys : List α) (n : Nat) (d : α) (h : n < xs.length) :
    (xs ++ ys).getD n d = xs.getD n d := by
  simp only [List.getD_eq_getElem?_getD]
  rw [List.getElem?_append_left h]

theorem getD_append_right {α : Type} (xs ys : List α) (n : Nat) (d : α) (h : xs.length ≤ n) :
    (xs ++ ys).getD n d = ys.getD (n - xs.length) d := by
  simp only [List.getD_eq_getElem?_getD]
  rw [List.getElem?_append_right h]

theorem getD_take {α : Type} (l : List α) (n i : Nat) (d : α) (h : i < n) :
    (l.take n).getD i d = l.getD i d := by
  simp only [List.getD_eq_getElem?_getD]
  rw [List.getElem?_take, if_pos h]

theorem getD_of_drop_cons {α : Type} {l t : List α} {p : Nat} {b : α} (h : l.drop p = b :: t)
    (d : α) : l.getD p d = b := by
  simp only [List.getD_eq_getElem?_getD]
  have := List.getElem?_drop l p 0
  rw [h] at this
  simp only [List.getElem?_cons_zero] at this
  rw [Nat.add_zero] at this
  rw [← this]
  rfl

theorem drop_succ_of_drop_cons {α : Type} {l t : List α} {p : Nat} {b : α}
    (h : l.drop p = b :: t) : l.drop (p + 1) = t := by
  have : l.drop (p + 1) = (l.drop p).drop 1 := by
    rw [List.drop_drop]
  rw [this, h]
  rfl

theorem natBitsBE_getD (v w j : Nat) (h : j < w) :
    (natBitsBE v w).getD j false = v.testBit (w - 1 - j) := by
  induction w generalizing j with
  | zero => omega
  | succ w ih =>
      cases j with
      | zero => simp [natBitsBE]
      | succ j =>
          show (natBitsBE v w).getD j false = _
          rw [ih j (by omega)]
          congr 1
          omega

theorem bytesBits_getD (l : List Nat) : ∀ (i j : Nat), i < l.length → j < 8 →
    (bytesBits l).getD (8 * i + j) false = (l.getD i 0).testBit (7 - j) := by
  induction l with
  | nil => intro i j hi _; simp at hi
  | cons b l ih =>
      intro i j hi hj
      cases i with
      | zero =>
          show (byteBits b ++ bytesBits l).getD (8 * 0 + j) false = _
          rw [getD_append_left _ _ _ _ (by rw [length_byteBits]; omega)]
          simp only [Nat.mul_zero, Nat.zero_add, List.getD_cons_zero]
          exact natBitsBE_getD b 8 j (by omega)
      | succ i =>
          show (byteBits b ++ bytesBits l).getD (8 * (i + 1) + j) false = _
          rw [getD_append_right _ _ _ _ (by rw [length_byteBits]; omega)]
          rw [length_byteBits]
          have : 8 * (i + 1) + j - 8 = 8 * i + j := by omega
          rw [this]
          exact ih i j (by simpa using hi) hj

theorem length_streamBits (s : BitStream) (h : s.buffer_length ≤ s.buffer.length) :
    (streamBits s).length = 8 * s.buffer_length := by
  rw [streamBits, length_bytesBits, List.length_take]
  omega

theorem read_bit_ok (s : BitStream) (hw : WfR s) (h : consumed s < 8 * s.buffer_length) :
    (bit_stream_read_bit s).1 = .allGood ∧
    (bit_stream_read_bit s).2.1
      = (if (streamBits s).getD (consumed s) false then 1 else 0) ∧
    WfR (bit_stream_read_bit s).2.2 ∧
    consumed (bit_stream_read_bit s).2.2 = consumed s + 1 ∧
    (bit_stream_read_bit s).2.2.buffer = s.buffer ∧
    (bit_stream_read_bit s).2.2.buffer_length = s.buffer_length := by
  obtain ⟨hc, hp, hl, hacc⟩ := hw
  rcases Nat.eq_zero_or_pos s.bit_count with h0 | h0
  · -- accumulator empty: unflush pulls the byte at the cursor
    have hpos : s.buffer_position < s.buffer_length := by
      simp only [consumed, h0] at h
      omega
    have hres : bit_stream_read_bit s = (.allGood,
        (if (s.buffer.getD s.buffer_position 0).testBit 7 then 1 else 0),
        { s with byte_buffer := s.buffer.getD s.buffer_position 0,
                 buffer_position := s.buffer_position + 1,
                 bit_count := 7 }) := by
      unfold bit_stream_read_bit bit_stream_unflush
      rw [if_pos h0, if_pos hpos]
      rfl
    rw [hres]
    have hbit : (streamBits s).getD (consumed s) false
        = (s.buffer.getD s.buffer_position 0).testBit 7 := by
      have hcs : consumed s = 8 * s.buffer_position + 0 := by simp [consumed, h0]
      rw [hcs, streamBits, bytesBits_getD _ _ _ (by rw [List.length_take]; omega) (by omega),
        getD_take _ _ _ _ hpos]
    refine ⟨rfl, by rw [hbit], ⟨by simp, by simp; omega, by simp; omega, ?_⟩, ?_, rfl, rfl⟩
    · intro _
      exact ⟨by simp, by simp⟩
    · simp [consumed, h0]
      omega
  · -- bits remain in the accumulator
    obtain ⟨hp1, hbb⟩ := hacc h0
    have hres : bit_stream_read_bit s = (.allGood,
        (if s.byte_buffer.testBit (s.bit_count - 1) then 1 else 0),
        { s with bit_count := s.bit_count - 1 }) := by
      unfold bit_stream_read_bit
      rw [if_neg (by omega)]
    rw [hres]
    have hbit : (streamBits s).getD (consumed s) false
        = s.byte_buffer.testBit (s.bit_count - 1) := by
      have hcs : consumed s = 8 * (s.buffer_position - 1) + (8 - s.bit_count) := by
        simp only [consumed]
        omega
      rw [hcs, streamBits,
        bytesBits_getD _ _ _ (by rw [List.length_take]; omega) (by omega),
        getD_take _ _ _ _ (by omega), ← hbb]
      congr 1
      omega
    refine ⟨rfl, by rw [hbit], ⟨by simp; omega, by simp; omega, by simp; omega, ?_⟩, ?_, rfl, rfl⟩
    · intro hpos
      simp only at hpos ⊢
      exact ⟨by omega, hbb⟩
    · simp only [consumed]
      omega

theorem read_uint32_loop_ok (bs : List Bool) : ∀ (s : BitStream) (value : Nat) (rest : List Bool),
    WfR s → (streamBits s).drop (consumed s) = bs ++ rest →
    value < 2 ^ (32 - bs.length) → bs.length ≤ 32 →
    (bit_stream_read_uint32_loop s value bs.length).1 = .allGood ∧
    (bit_stream_read_uint32_loop s value bs.length).2.1
      = value * 2 ^ bs.length + bitsToNat bs ∧
    WfR (bit_stream_read_uint32_loop s value bs.length).2.2 ∧
    consumed (bit_stream_read_uint32_loop s value bs.length).2.2 = consumed s + bs.length ∧
    (bit_stream_read_uint32_loop s value bs.length).2.2.buffer = s.buffer ∧
    (bit_stream_read_uint32_loop s value bs.length).2.2.buffer_length = s.buffer_length := by
  induction bs with
  | nil =>
      intro s value rest hw _ _ _
      exact ⟨rfl, by simp [bit_stream_read_uint32_loop, bitsToNat], hw, by
        simp [bit_stream_read_uint32_loop], rfl, rfl⟩
  | cons b bs ih =>
      intro s value rest hw hdrop hv h32
      have hlenS : (streamBits s).length = 8 * s.buffer_length :=
        length_streamBits s hw.2.2.1
      have hcon : consumed s < 8 * s.buffer_length := by
        have hle : consumed s ≤ (streamBits s).length := by
          by_contra hcc
          rw [List.drop_eq_nil_of_le (by omega)] at hdrop
          simp at hdrop
        have : ((streamBits s).drop (consumed s)).length = (b :: bs ++ rest).length := by
          rw [hdrop]
        rw [List.length_drop] at this
        simp only [List.length_cons, List.length_append] at this
        omega
      obtain ⟨hr1, hr2, hr3, hr4, hr5, hr6⟩ := read_bit_ok s hw hcon
      rcases hrb : bit_stream_read_bit s with ⟨e, bit, s1⟩
      rw [hrb] at hr1 hr2 hr3 hr4 hr5 hr6
      simp only at hr1 hr2 hr3 hr4 hr5 hr6
      subst hr1
      have hgd : (streamBits s).getD (consumed s) false = b := getD_of_drop_cons hdrop false
      have hbit : bit = if b then 1 else 0 := by rw [hr2, hgd]
      have hres : bit_stream_read_uint32_loop s value (b :: bs).length
          = bit_stream_read_uint32_loop s1 (value * 2 % 4294967296 + bit % 2) bs.length := by
        show (match bit_stream_read_bit s with
          | (.allGood, bit, s1) =>
              bit_stream_read_uint32_loop s1 (value * 2 % 4294967296 + bit % 2) bs.length
          | (e, _, s1) => (e, 0, s1)) = _
        rw [hrb]
      have hmod : value * 2 % 4294967296 = value * 2 := by
        apply Nat.mod_eq_of_lt
        have h1 : (2 : Nat) ^ (32 - (b :: bs).length) * 2 ≤ 2 ^ 32 := by
          rw [← pow_succ]
          apply Nat.pow_le_pow_right (by omega)
          simp only [List.length_cons] at h32 ⊢
          omega
        have : value * 2 < 2 ^ (32 - (b :: bs).length) * 2 := by omega
        calc value * 2 < 2 ^ (32 - (b :: bs).length) * 2 := this
        _ ≤ 2 ^ 32 := h1
        _ ≤ 4294967296 := by norm_num
      have hv1 : value * 2 % 4294967296 + bit % 2 < 2 ^ (32 - bs.length) := by
        rw [hmod, hbit]
        have h1 : 2 ^ (32 - (b :: bs).length) * 2 = 2 ^ (32 - bs.length) := by
          rw [← pow_succ]
          congr 1
          simp only [List.length_cons] at h32 ⊢
          omega
        have hb2 : (if b then 1 else 0) % 2 ≤ 1 := by split <;> omega
        omega
      have hdrop1 : (streamBits s1).drop (consumed s1) = bs ++ rest := by
        have hsb : streamBits s1 = streamBits s := by
          simp only [streamBits, hr5, hr6]
        rw [hsb, hr4]
        exact drop_succ_of_drop_cons hdrop
      rw [hres]
      obtain ⟨h1, h2, h3, h4, h5, h6⟩ := ih s1 (value * 2 % 4294967296 + bit % 2) rest hr3
        hdrop1 hv1 (by simp only [List.length_cons] at h32; omega)
      refine ⟨h1, ?_, h3, by rw [h4, hr4]; simp only [List.length_cons]; omega,
        by rw [h5, hr5], by rw [h6, hr6]⟩
      rw [h2, hmod, hbit]
      simp only [bitsToNat, List.length_cons, pow_succ]
      rcases b with _ | _ <;> simp <;> ring

theorem read_uint32_ok (s : BitStream) (bs rest : List Bool) (hw : WfR s)
    (hdrop : (streamBits s).drop (consumed s) = bs ++ rest) (h32 : bs.length ≤ 32) :
    (bit_stream_read_uint32 s bs.length).1 = .allGood ∧
    (bit_stream_read_uint32 s bs.length).2.1 = bitsToNat bs ∧
    WfR (bit_stream_read_uint32 s bs.length).2.2 ∧
    consumed (bit_stream_read_uint32 s bs.length).2.2 = consumed s + bs.length ∧
    (bit_stream_read_uint32 s bs.length).2.2.buffer = s.buffer ∧
    (bit_stream_read_uint32 s bs.length).2.2.buffer_length = s.buffer_length := by
  have h := read_uint32_loop_ok bs s 0 rest hw hdrop (Nat.pos_pow_of_pos _ (by omega)) h32
  simpa [bit_stream_read_uint32] using h

theorem byte_and_127 (b : Nat) : b &&& 127 = b % 128 := and_127_eq_mod b

theorem cont_byte_and_128 {r : Nat} (h : r < 128) : (128 + r) &&& 128 = 128 := by
  have ht : (128 + r).testBit 7 = true := by
    have : (128 + r) = 2 ^ 7 * 1 + r := by norm_num
    rw [this, Nat.testBit_mul_pow_two_add 1 (by norm_num [h]) 7]
    norm_num
  have h2 := Nat.and_two_pow (128 + r) 7
  norm_num [ht] at h2
  exact h2

theorem final_byte_and_128 {r : Nat} (h : r < 128) : r &&& 128 = 0 := by
  have ht : r.testBit 7 = false := Nat.testBit_lt_two_pow (by norm_num [h])
  have h2 := Nat.and_two_pow r 7
  norm_num [ht] at h2
  exact h2

theorem lor_disjoint {a c i : Nat} (ha : a < 2 ^ i) : a ||| c * 2 ^ i = a + c * 2 ^ i := by
  have key := Nat.mul_add_lt_is_or (b := a) (i := i) ha c
  rw [Nat.lor_comm, Nat.mul_comm] at key
  omega

theorem read_7bit_loop_ok (v : Nat) : ∀ (s : BitStream) (n0 shift : Nat) (rest : List Bool),
    WfR s → (streamBits s).drop (consumed s) = bytesBits (vlqBytes v) ++ rest →
    1 ≤ v → n0 < 2 ^ shift → n0 + v * 2 ^ shift < 2 ^ 32 →
    (bit_stream_read_7bit_loop s n0 shift).1 = .allGood ∧
    (bit_stream_read_7bit_loop s n0 shift).2.1 = n0 + v * 2 ^ shift ∧
    WfR (bit_stream_read_7bit_loop s n0 shift).2.2 ∧
    consumed (bit_stream_read_7bit_loop s n0 shift).2.2
      = consumed s + 8 * (vlqBytes v).length ∧
    (bit_stream_read_7bit_loop s n0 shift).2.2.buffer = s.buffer ∧
    (bit_stream_read_7bit_loop s n0 shift).2.2.buffer_length = s.buffer_length := by
  induction v using Nat.strong_induction_on with
  | _ v ih =>
    intro s n0 shift rest hw hdrop hv hn0 hbound
    rcases Nat.lt_or_ge 127 v with h127 | h127
    · -- continuation group
      have hvb : vlqBytes v = (128 ||| v &&& 127) :: vlqBytes (v / 128) := by
        conv_lhs => rw [vlqBytes]
        rw [if_pos h127]
      have hbyte : 128 ||| v &&& 127 = 128 + v % 128 := by
        rw [byte_and_127]
        exact or_128_eq_add (Nat.mod_lt _ (by omega))
      rw [hvb] at hdrop
      simp only [bytesBits] at hdrop
      rw [List.append_assoc] at hdrop
      obtain ⟨h1, h2, h3, h4, h5, h6⟩ := read_uint32_ok s (byteBits (128 ||| v &&& 127))
        (bytesBits (vlqBytes (v / 128)) ++ rest) hw hdrop (by rw [length_byteBits]; norm_num)
      rw [length_byteBits] at h1 h2 h3 h4 h5 h6
      rcases hru : bit_stream_read_uint32 s 8 with ⟨e, byte, s1⟩
      rw [hru] at h1 h2 h3 h4 h5 h6
      simp only at h1 h2 h3 h4 h5 h6
      subst h1
      have hbv : byte = 128 + v % 128 := by
        rw [h2, byteBits, bitsToNat_natBitsBE_of_lt (by rw [hbyte]; omega)]
        exact hbyte
      -- loop condition: continuation flag set, shift small enough
      have hsh : shift ≤ 24 := by
        have : (128 : Nat) * 2 ^ shift ≤ v * 2 ^ shift := Nat.mul_le_mul_right _ (by omega)
        have h2' : (2 : Nat) ^ (7 + shift) = 128 * 2 ^ shift := by rw [pow_add]; norm_num
        have : (2 : Nat) ^ (7 + shift) < 2 ^ 32 := by omega
        have := (Nat.pow_lt_pow_iff_right (a := 2) (by omega)).mp this
        omega
      have hflag : ¬ (byte &&& 128 = 0 ∨ shift + 7 > 32) := by
        push_neg
        constructor
        · rw [hbv, cont_byte_and_128 (Nat.mod_lt _ (by omega))]
          omega
        · omega
      have hmodv : (byte &&& 127) * 2 ^ shift % 4294967296 = v % 128 * 2 ^ shift := by
        rw [hbv]
        have : (128 + v % 128) &&& 127 = v % 128 := by
          rw [byte_and_127]
          omega
        rw [this]
        apply Nat.mod_eq_of_lt
        have hle : v % 128 * 2 ^ shift ≤ v * 2 ^ shift :=
          Nat.mul_le_mul_right _ (Nat.mod_le _ _)
        have : (4294967296 : Nat) = 2 ^ 32 := by norm_num
        omega
      have hlor : n0 ||| (byte &&& 127) * 2 ^ shift % 4294967296
          = n0 + v % 128 * 2 ^ shift := by
        rw [hmodv]
        exact lor_disjoint hn0
      have hres : bit_stream_read_7bit_loop s n0 shift
          = bit_stream_read_7bit_loop s1 (n0 + v % 128 * 2 ^ shift) (shift + 7) := by
        conv_lhs => rw [bit_stream_read_7bit_loop]
        rw [hru]
        simp only [hlor]
        rw [if_neg hflag]
      rw [hres]
      have hrec := ih (v / 128) (Nat.div_lt_self (by omega) (by omega)) s1
        (n0 + v % 128 * 2 ^ shift) (shift + 7) rest h3
        (by
          rw [h4]
          have hsb : streamBits s1 = streamBits s := by
            simp only [streamBits, h5, h6]
          rw [hsb]
          rw [show consumed s + 8 = consumed s + (byteBits (128 ||| v &&& 127)).length by
            rw [length_byteBits]]
          rw [← List.drop_drop, hdrop, List.drop_left])
        (Nat.one_le_div_iff (by omega) |>.mpr (by omega))
        (by
          have : n0 + v % 128 * 2 ^ shift < 2 ^ shift + 127 * 2 ^ shift + 2 ^ shift * 0 := by
            have : v % 128 ≤ 127 := by omega
            have := Nat.mul_le_mul_right (2 ^ shift) this
            omega
          have heq : (2 : Nat) ^ (shift + 7) = 2 ^ shift * 128 := by
            rw [pow_add]; norm_num
          omega)
        (by
          have heq : v % 128 * 2 ^ shift + v / 128 * 2 ^ (shift + 7) = v * 2 ^ shift := by
            have h7 : (2 : Nat) ^ (shift + 7) = 2 ^ shift * 128 := by rw [pow_add]; norm_num
            rw [h7]
            calc v % 128 * 2 ^ shift + v / 128 * (2 ^ shift * 128)
                = (128 * (v / 128) + v % 128) * 2 ^ shift := by ring
            _ = v * 2 ^ shift := by rw [Nat.div_add_mod]
          omega)
      obtain ⟨g1, g2, g3, g4, g5, g6⟩ := hrec
      refine ⟨g1, ?_, g3, ?_, by rw [g5, h5], by rw [g6, h6]⟩
      · rw [g2]
        have heq : v % 128 * 2 ^ shift + v / 128 * 2 ^ (shift + 7) = v * 2 ^ shift := by
          have h7 : (2 : Nat) ^ (shift + 7) = 2 ^ shift * 128 := by rw [pow_add]; norm_num
          rw [h7]
          calc v % 128 * 2 ^ shift + v / 128 * (2 ^ shift * 128)
              = (128 * (v / 128) + v % 128) * 2 ^ shift := by ring
          _ = v * 2 ^ shift := by rw [Nat.div_add_mod]
        omega
      · rw [g4, h4, hvb]
        simp only [List.length_cons]
        omega
    · -- final group: 1 ≤ v ≤ 127
      have hvb : vlqBytes v = [v &&& 127] := by
        conv_lhs => rw [vlqBytes]
        rw [if_neg (by omega), if_pos (by omega)]
      have hand : v &&& 127 = v := by
        rw [byte_and_127]
        omega
      rw [hvb] at hdrop
      simp only [bytesBits, List.append_nil] at hdrop
      obtain ⟨h1, h2, h3, h4, h5, h6⟩ := read_uint32_ok s (byteBits (v &&& 127)) rest hw hdrop
        (by rw [length_byteBits]; norm_num)
      rw [length_byteBits] at h1 h2 h3 h4 h5 h6
      rcases hru : bit_stream_read_uint32 s 8 with ⟨e, byte, s1⟩
      rw [hru] at h1 h2 h3 h4 h5 h6
      simp only at h1 h2 h3 h4 h5 h6
      subst h1
      have hbv : byte = v := by
        rw [h2, byteBits, bitsToNat_natBitsBE_of_lt (by rw [hand]; omega), hand]
      have hflag : byte &&& 128 = 0 ∨ shift + 7 > 32 := by
        left
        rw [hbv]
        exact final_byte_and_128 (by omega)
      have hmodv : (byte &&& 127) * 2 ^ shift % 4294967296 = v * 2 ^ shift := by
        rw [hbv, hand]
        apply Nat.mod_eq_of_lt
        have : (4294967296 : Nat) = 2 ^ 32 := by norm_num
        omega
      have hres : bit_stream_read_7bit_loop s n0 shift = (.allGood, n0 + v * 2 ^ shift, s1) := by
        conv_lhs => rw [bit_stream_read_7bit_loop]
        rw [hru]
        simp only [hmodv, lor_disjoint hn0]
        rw [if_pos hflag]
      rw [hres]
      exact ⟨rfl, rfl, h3, by rw [hvb]; simpa using h4, h5, h6⟩

theorem read_7bit_ok (s : BitStream) (v : Nat) (rest : List Bool) (hw : WfR s)
    (hdrop : (streamBits s).drop (consumed s) = bytesBits (vlqBytes v) ++ rest)
    (hv : 1 ≤ v) (h32 : v < 2 ^ 32) :
    (bit_stream_read_7bit_uint32 s).1 = .allGood ∧
    (bit_stream_read_7bit_uint32 s).2.1 = v ∧
    WfR (bit_stream_read_7bit_uint32 s).2.2 ∧
    consumed (bit_stream_read_7bit_uint32 s).2.2 = consumed s + 8 * (vlqBytes v).length ∧
    (bit_stream_read_7bit_uint32 s).2.2.buffer = s.buffer ∧
    (bit_stream_read_7bit_uint32 s).2.2.buffer_length = s.buffer_length := by
  have h := read_7bit_loop_ok v s 0 0 rest hw hdrop hv (by norm_num) (by simpa using h32)
  simpa [bit_stream_read_7bit_uint32] using h

/-! ### Match finder specification -/

theorem run_len_bytes_eq (bytes : List Nat) (n : Nat) :
    ∀ (l off idx : Nat), l < run_len bytes n off idx →
    off + l < n ∧ idx + l < n ∧ bytes.getD (off + l) 0 = bytes.getD (idx + l) 0 := by
  intro l
  induction l with
  | zero =>
      intro off idx hl
      have hrl : run_len bytes n off idx = if off < n ∧ idx < n ∧
          bytes.getD off 0 = bytes.getD idx 0 then 1 + run_len bytes n (off + 1) (idx + 1)
          else 0 := by
        conv_lhs => rw [run_len]
      by_cases hcond : off < n ∧ idx < n ∧ bytes.getD off 0 = bytes.getD idx 0
      · simpa using hcond
      · rw [hrl, if_neg hcond] at hl
        omega
  | succ l ih =>
      intro off idx hl
      have hrl : run_len bytes n off idx = if off < n ∧ idx < n ∧
          bytes.getD off 0 = bytes.getD idx 0 then 1 + run_len bytes n (off + 1) (idx + 1)
          else 0 := by
        conv_lhs => rw [run_len]
      by_cases hcond : off < n ∧ idx < n ∧ bytes.getD off 0 = bytes.getD idx 0
      · rw [hrl, if_pos hcond] at hl
        have := ih (off + 1) (idx + 1) (by omega)
        refine ⟨by omega, by omega, ?_⟩
        have h1 : off + 1 + l = off + (l + 1) := by omega
        have h2 : idx + 1 + l = idx + (l + 1) := by omega
        rw [h1, h2] at this
        exact this.2.2
      · rw [hrl, if_neg hcond] at hl
        omega

theorem run_len_le (bytes : List Nat) (n : Nat) (off idx : Nat) (h : idx < n) :
    run_len bytes n off idx ≤ n - idx := by
  rcases Nat.eq_zero_or_pos (run_len bytes n off idx) with h0 | h0
  · omega
  · have := run_len_bytes_eq bytes n (run_len bytes n off idx - 1) off idx (by omega)
    omega

/-- Characterisation of the candidate sweep: the result length dominates
every remaining candidate run, and when some candidate reaches the running
best, the returned offset is the last candidate attaining the final best. -/
theorem match_scan_spec (bytes : List Nat) (n idx : Nat) :
    ∀ (fuel off bo bl : Nat), idx - off ≤ fuel →
    (∀ j, off ≤ j → j < idx → j < n →
        run_len bytes n j idx ≤ (match_scan bytes n idx off bo bl).2) ∧
    bl ≤ (match_scan bytes n idx off bo bl).2 ∧
    ((∃ j, off ≤ j ∧ j < idx ∧ j < n ∧ bl ≤ run_len bytes n j idx) →
      (off ≤ (match_scan bytes n idx off bo bl).1 ∧
       (match_scan bytes n idx off bo bl).1 < idx ∧
       (match_scan bytes n idx off bo bl).1 < n ∧
       run_len bytes n (match_scan bytes n idx off bo bl).1 idx
         = (match_scan bytes n idx off bo bl).2 ∧
       ∀ j, off ≤ j → j < idx → j < n →
         run_len bytes n j idx = (match_scan bytes n idx off bo bl).2 →
         j ≤ (match_scan bytes n idx off bo bl).1)) ∧
    ((∀ j, off ≤ j → j < idx → j < n → run_len bytes n j idx < bl) →
      match_scan bytes n idx off bo bl = (bo, bl)) := by
  intro fuel
  induction fuel with
  | zero =>
      intro off bo bl hf
      have hstop : ¬ (off < idx ∧ off < n) := by omega
      have hres : match_scan bytes n idx off bo bl = (bo, bl) := by
        conv_lhs => rw [match_scan]
        rw [if_neg hstop]
      rw [hres]
      refine ⟨?_, le_refl _, ?_, fun _ => rfl⟩
      · intro j hj1 hj2 _
        omega
      · rintro ⟨j, hj1, hj2, _, _⟩
        omega
  | succ fuel ih =>
      intro off bo bl hf
      by_cases hcont : off < idx ∧ off < n
      · have hres : match_scan bytes n idx off bo bl =
            (if run_len bytes n off idx ≥ bl
             then match_scan bytes n idx (off + 1) off (run_len bytes n off idx)
             else match_scan bytes n idx (off + 1) bo bl) := by
          conv_lhs => rw [match_scan]
          rw [if_pos hcont]
        by_cases hge : run_len bytes n off idx ≥ bl
        · rw [hres, if_pos hge]
          obtain ⟨ih1, ih2, ih3, ih4⟩ :=
            ih (off + 1) off (run_len bytes n off idx) (by omega)
          refine ⟨?_, by omega, ?_, ?_⟩
          · intro j hj1 hj2 hj3
            rcases Nat.eq_or_lt_of_le hj1 with he | hlt
            · subst he
              exact ih2
            · exact ih1 j (by omega) hj2 hj3
          · intro _
            by_cases hex : ∃ j, off + 1 ≤ j ∧ j < idx ∧ j < n ∧
                run_len bytes n off idx ≤ run_len bytes n j idx
            · obtain ⟨g1, g2, g3, g4, g5⟩ := ih3 hex
              refine ⟨by omega, g2, g3, g4, ?_⟩
              intro j hj1 hj2 hj3 hj4
              rcases Nat.eq_or_lt_of_le hj1 with he | hlt
              · omega
              · exact g5 j (by omega) hj2 hj3 hj4
            · push_neg at hex
              have hlt : ∀ j, off + 1 ≤ j → j < idx → j < n →
                  run_len bytes n j idx < run_len bytes n off idx := by
                intro j h1 h2 h3
                have := hex j h1 h2 h3
                omega
              have hend := ih4 hlt
              rw [hend]
              refine ⟨le_refl _, hcont.1, hcont.2, rfl, ?_⟩
              intro j hj1 hj2 hj3 hj4
              rcases Nat.eq_or_lt_of_le hj1 with he | hlt2
              · omega
              · have := hlt j (by omega) hj2 hj3
                omega
          · intro hall
            have := hall off (le_refl _) hcont.1 hcont.2
            omega
        · rw [hres, if_neg hge]
          obtain ⟨ih1, ih2, ih3, ih4⟩ := ih (off + 1) bo bl (by omega)
          refine ⟨?_, ih2, ?_, ?_⟩
          · intro j hj1 hj2 hj3
            rcases Nat.eq_or_lt_of_le hj1 with he | hlt
            · subst he
              omega
            · exact ih1 j (by omega) hj2 hj3
          · rintro ⟨j, hj1, hj2, hj3, hj4⟩
            have hjo : off + 1 ≤ j := by
              rcases Nat.eq_or_lt_of_le hj1 with he | hlt
              · subst he
                omega
              · omega
            obtain ⟨g1, g2, g3, g4, g5⟩ := ih3 ⟨j, hjo, hj2, hj3, hj4⟩
            refine ⟨by omega, g2, g3, g4, ?_⟩
            intro j2 hj21 hj22 hj23 hj24
            rcases Nat.eq_or_lt_of_le hj21 with he | hlt
            · subst he
              omega
            · exact g5 j2 (by omega) hj22 hj23 hj24
          · intro hall
            exact ih4 (fun j h1 h2 h3 => hall j (by omega) h2 h3)
      · have hres : match_scan bytes n idx off bo bl = (bo, bl) := by
          conv_lhs => rw [match_scan]
          rw [if_neg hcont]
        rw [hres]
        refine ⟨?_, le_refl _, ?_, fun _ => rfl⟩
        · intro j hj1 hj2 hj3
          omega
        · rintro ⟨j, hj1, hj2, hj3, _⟩
          omega

/-- The window start used by `__get_longest_match`. -/
def window_start (config : LzssConfig) (index : Nat) : Nat :=
  if config.max_offset > index then 0 else index - config.max_offset

/-- Everything the encoder needs from an emitted pair token: field ranges
and the defining property that the referenced run equals the run at the
current position (possibly overlapping past `index`). -/
theorem match_ok (config : LzssConfig) (input : ArrayT) (index : Nat)
    (hml : 1 ≤ config.minimum_length)
    (hlen : config.minimum_length ≤ (get_longest_match config input index).length) :
    1 ≤ (get_longest_match config input index).offset ∧
    (get_longest_match config input index).offset ≤ index ∧
    (get_longest_match config input index).offset ≤ config.max_offset ∧
    (get_longest_match config input index).length ≤ config.max_length ∧
    index + (get_longest_match config input index).length ≤ input.length ∧
    ∀ l, l < (get_longest_match config input index).length →
      input.bytes.getD (index - (get_longest_match config input index).offset + l) 0
        = input.bytes.getD (index + l) 0 := by
  by_cases hearly : index + config.minimum_length ≥ input.length
  · have : get_longest_match config input index = { offset := 0, length := 0 } := by
      unfold get_longest_match
      rw [if_pos hearly]
    rw [this] at hlen ⊢
    simp at hlen
    omega
  · have hres : get_longest_match config input index =
        { offset := index -
            (match_scan input.bytes input.length index (window_start config index) 0 0).1,
          length := min
            (match_scan input.bytes input.length index (window_start config index) 0 0).2
            config.max_length } := by
      unfold get_longest_match
      rw [if_neg hearly]
      rfl
    set r := match_scan input.bytes input.length index (window_start config index) 0 0 with hr
    rw [hres] at hlen ⊢
    simp only at hlen ⊢
    obtain ⟨hs1, hs2, hs3, hs4⟩ :=
      match_scan_spec input.bytes input.length index (index - window_start config index)
        (window_start config index) 0 0 (le_refl _)
    rw [← hr] at hs1 hs2 hs3 hs4
    have hlen1 : 1 ≤ min r.2 config.max_length := by omega
    have hr2 : 1 ≤ r.2 := by omega
    -- some candidate must exist (otherwise the scan returns (0,0))
    have hex : ∃ j, window_start config index ≤ j ∧ j < index ∧ j < input.length ∧
        0 ≤ run_len input.bytes input.length j index := by
      by_contra hne
      push_neg at hne
      have : r = (0, 0) := hs4 (by
        intro j h1 h2 h3
        have := hne j h1 h2 h3
        omega)
      rw [this] at hr2
      omega
    obtain ⟨g1, g2, g3, g4, g5⟩ := hs3 hex
    have hidx : index < input.length := by omega
    refine ⟨by omega, by omega, ?_, by omega, ?_, ?_⟩
    · -- offset within the window
      unfold window_start at g1
      by_cases hw : config.max_offset > index
      · omega
      · rw [if_neg hw] at g1
        omega
    · -- the matched run stays in bounds
      have hrun : min r.2 config.max_length ≤ run_len input.bytes input.length r.1 index := by
        omega
      have := run_len_le input.bytes input.length r.1 index hidx
      omega
    · intro l hl
      have hrl : l < run_len input.bytes input.length r.1 index := by omega
      have := run_len_bytes_eq input.bytes input.length l r.1 index hrl
      have hoff : index - (index - r.1) = r.1 := by omega
      rw [hoff]
      exact this.2.2

/-! ### Token stream abstraction -/

/-- A token of the compressed body: a literal byte or a back-reference. -/
inductive Token where
  | lit (b : Nat)
  | pair (off len : Nat)
deriving DecidableEq, Repr

/-- How far a token advances the output index. -/
def token_adv : Token → Nat
  | .lit _ => 1
  | .pair _ len => len

def tokens_adv : List Token → Nat
  | [] => 0
  | t :: ts => token_adv t + tokens_adv ts

/-- The bits of one token: a flag bit, then the 8-bit literal or the
`offset_bits`/`length_bits` fields, all MSB-first. -/
def tokenBits (config : LzssConfig) : Token → List Bool
  | .lit b => false :: natBitsBE b 8
  | .pair off len =>
      true :: (natBitsBE off config.offset_bits ++ natBitsBE len config.length_bits)

def tokensBits (config : LzssConfig) : List Token → List Bool
  | [] => []
  | t :: ts => tokenBits config t ++ tokensBits config ts

/-- The token sequence `lzss_encode` emits (mirrors the encoder loop; same
fuel convention as `lzss_encode_loop`). -/
def encode_tokens (config : LzssConfig) (input : ArrayT) : Nat → Nat → List Token
  | 0, _ => []
  | fuel + 1, index =>
    if index < input.length then
      if (get_longest_match config input index).length ≥ config.minimum_length then
        .pair (get_longest_match config input index).offset
              (get_longest_match config input index).length
          :: encode_tokens config input fuel (index + (get_longest_match config input index).length)
      else
        .lit (input.bytes.getD index 0) :: encode_tokens config input fuel (index + 1)
    else []

theorem tokensBits_append (config : LzssConfig) (ts1 ts2 : List Token) :
    tokensBits config (ts1 ++ ts2) = tokensBits config ts1 ++ tokensBits config ts2 := by
  induction ts1 with
  | nil => rfl
  | cons t ts ih => simp [tokensBits, ih]

/-- Success of the encoder loop given room for all its token bits, and
the bits it appends. -/
theorem encode_loop_ok (config : LzssConfig) (input : ArrayT)
    (hml : 1 ≤ config.minimum_length) :
    ∀ (fuel index : Nat) (s : BitStream),
    input.length ≤ index + fuel → WfW s →
    wLen s + (tokensBits config (encode_tokens config input fuel index)).length
      ≤ 8 * s.buffer_length + 7 →
    (lzss_encode_loop config input index fuel s).1 = .allGood ∧
    WfW (lzss_encode_loop config input index fuel s).2 ∧
    wBits (lzss_encode_loop config input index fuel s).2
      = wBits s ++ tokensBits config (encode_tokens config input fuel index) ∧
    wLen (lzss_encode_loop config input index fuel s).2
      = wLen s + (tokensBits config (encode_tokens config input fuel index)).length ∧
    (lzss_encode_loop config input index fuel s).2.buffer_length = s.buffer_length ∧
    (lzss_encode_loop config input index fuel s).2.buffer.length = s.buffer.length := by
  intro fuel
  induction fuel with
  | zero =>
      intro index s hfuel hw _
      exact ⟨rfl, hw, by simp [lzss_encode_loop, encode_tokens, tokensBits], by
        simp [lzss_encode_loop, encode_tokens, tokensBits], rfl, rfl⟩
  | succ fuel ih =>
      intro index s hfuel hw hcap
      by_cases hidx : index < input.length
      · by_cases hm : (get_longest_match config input index).length ≥ config.minimum_length
        · -- pair token
          have htoks : encode_tokens config input (fuel + 1) index =
              .pair (get_longest_match config input index).offset
                    (get_longest_match config input index).length
                :: encode_tokens config input fuel
                     (index + (get_longest_match config input index).length) := by
            conv_lhs => rw [encode_tokens]
            rw [if_pos hidx, if_pos hm]
          rw [htoks] at hcap ⊢
          simp only [tokensBits, tokenBits, List.length_cons, List.length_append,
            length_natBitsBE] at hcap
          -- flag bit
          rcases hw1 : bit_stream_write_bit s 1 with ⟨e1, s1⟩
          have ho1 := write_bit_ok s 1 hw (by omega)
          rw [hw1] at ho1
          obtain ⟨he1, hwf1, hb1, hl1, hbl1, hll1⟩ := ho1
          simp only at he1 hb1 hl1 hbl1 hll1
          subst he1
          -- offset field
          rcases hw2 : bit_stream_write_uint32 s1
              (get_longest_match config input index).offset config.offset_bits with ⟨e2, s2⟩
          have ho2 := write_uint32_ok config.offset_bits s1
            (get_longest_match config input index).offset hwf1 (by omega)
          rw [hw2] at ho2
          obtain ⟨he2, hwf2, hb2, hl2, hbl2, hll2⟩ := ho2
          simp only at he2 hb2 hl2 hbl2 hll2
          subst he2
          -- length field
          rcases hw3 : bit_stream_write_uint32 s2
              (get_longest_match config input index).length config.length_bits with ⟨e3, s3⟩
          have ho3 := write_uint32_ok config.length_bits s2
            (get_longest_match config input index).length hwf2 (by omega)
          rw [hw3] at ho3
          obtain ⟨he3, hwf3, hb3, hl3, hbl3, hll3⟩ := ho3
          simp only at he3 hb3 hl3 hbl3 hll3
          subst he3
          have hres : lzss_encode_loop config input index (fuel + 1) s =
              lzss_encode_loop config input
                (index + (get_longest_match config input index).length) fuel s3 := by
            show (if index < input.length then
                if (get_longest_match config input index).length ≥ config.minimum_length then
                  match bit_stream_write_bit s 1 with
                  | (.allGood, s1) =>
                    match bit_stream_write_uint32 s1
                        (get_longest_match config input index).offset config.offset_bits with
                    | (.allGood, s2) =>
                      match bit_stream_write_uint32 s2
                          (get_longest_match config input index).length config.length_bits with
                      | (.allGood, s3) => lzss_encode_loop config input
                          (index + (get_longest_match config input index).length) fuel s3
                      | (e, s3) => (e, s3)
                    | (e, s2) => (e, s2)
                  | (e, s1) => (e, s1)
                else
                  match bit_stream_write_bit s 0 with
                  | (.allGood, s1) =>
                    match bit_stream_write_uint32 s1 (input.bytes.getD index 0) 8 with
                    | (.allGood, s2) => lzss_encode_loop config input (index + 1) fuel s2
                    | (e, s2) => (e, s2)
                  | (e, s1) => (e, s1)
              else (.allGood, s)) = _
            rw [if_pos hidx, if_pos hm]
            simp only [hw1, hw2, hw3]
          rw [hres]
          obtain ⟨g1, g2, g3, g4, g5, g6⟩ := ih
            (index + (get_longest_match config input index).length) s3
            (by omega) hwf3 (by omega)
          refine ⟨g1, g2, ?_, ?_, by rw [g5, hbl3, hbl2, hbl1],
            by rw [g6, hll3, hll2, hll1]⟩
          · rw [g3, hb3, hb2, hb1]
            simp only [tokensBits, tokenBits, List.append_assoc, List.cons_append,
              List.nil_append]
            norm_num
          · rw [g4, hl3, hl2, hl1]
            simp only [tokensBits, tokenBits, List.length_cons, List.length_append,
              length_natBitsBE]
            omega
        · -- literal token
          have htoks : encode_tokens config input (fuel + 1) index =
              .lit (input.bytes.getD index 0) :: encode_tokens config input fuel (index + 1) := by
            conv_lhs => rw [encode_tokens]
            rw [if_pos hidx, if_neg hm]
          rw [htoks] at hcap ⊢
          simp only [tokensBits, tokenBits, List.length_cons, List.length_append,
            length_natBitsBE] at hcap
          rcases hw1 : bit_stream_write_bit s 0 with ⟨e1, s1⟩
          have ho1 := write_bit_ok s 0 hw (by omega)
          rw [hw1] at ho1
          obtain ⟨he1, hwf1, hb1, hl1, hbl1, hll1⟩ := ho1
          simp only at he1 hb1 hl1 hbl1 hll1
          subst he1
          rcases hw2 : bit_stream_write_uint32 s1 (input.bytes.getD index 0) 8 with ⟨e2, s2⟩
          have ho2 := write_uint32_ok 8 s1 (input.bytes.getD index 0) hwf1 (by omega)
          rw [hw2] at ho2
          obtain ⟨he2, hwf2, hb2, hl2, hbl2, hll2⟩ := ho2
          simp only at he2 hb2 hl2 hbl2 hll2
          subst he2
          have hres : lzss_encode_loop config input index (fuel + 1) s =
              lzss_encode_loop config input (index + 1) fuel s2 := by
            show (if index < input.length then
                if (get_longest_match config input index).length ≥ config.minimum_length then
                  match bit_stream_write_bit s 1 with
                  | (.allGood, s1) =>
                    match bit_stream_write_uint32 s1
                        (get_longest_match config input index).offset config.offset_bits with
                    | (.allGood, s2) =>
                      match bit_stream_write_uint32 s2
                          (get_longest_match config input index).length config.length_bits with
                      | (.allGood, s3) => lzss_encode_loop config input
                          (index + (get_longest_match config input index).length) fuel s3
                      | (e, s3) => (e, s3)
                    | (e, s2) => (e, s2)
                  | (e, s1) => (e, s1)
                else
                  match bit_stream_write_bit s 0 with
                  | (.allGood, s1) =>
                    match bit_stream_write_uint32 s1 (input.bytes.getD index 0) 8 with
                    | (.allGood, s2) => lzss_encode_loop config input (index + 1) fuel s2
                    | (e, s2) => (e, s2)
                  | (e, s1) => (e, s1)
              else (.allGood, s)) = _
            rw [if_pos hidx, if_neg hm]
            simp only [hw1, hw2]
          rw [hres]
          obtain ⟨g1, g2, g3, g4, g5, g6⟩ := ih (index + 1) s2 (by omega) hwf2 (by omega)
          refine ⟨g1, g2, ?_, ?_, by rw [g5, hbl2, hbl1], by rw [g6, hll2, hll1]⟩
          · rw [g3, hb2, hb1]
            simp only [tokensBits, tokenBits, List.append_assoc, List.cons_append,
              List.nil_append]
            norm_num
          · rw [g4, hl2, hl1]
            simp only [tokensBits, tokenBits, List.length_cons, List.length_append,
              length_natBitsBE]
            omega
      · have hres : lzss_encode_loop config input index (fuel + 1) s = (.allGood, s) := by
          show (if index < input.length then _ else ((.allGood, s) : Err × BitStream)) = _
          rw [if_neg hidx]
        have htoks : encode_tokens config input (fuel + 1) index = [] := by
          unfold encode_tokens
          rw [if_neg hidx]
        rw [hres, htoks]
        exact ⟨rfl, hw, by simp [tokensBits], by simp [tokensBits], rfl, rfl⟩

/-- Top-level encoder success: with room for the header and all token bits,
`lzss_encode` succeeds and the produced prefix carries exactly the header
bits, the token bits, and zero padding. -/
theorem lzss_encode_ok (config : LzssConfig) (input output : ArrayT)
    (hml : 1 ≤ config.minimum_length) (hn : 1 ≤ input.length)
    (hout : output.length ≤ output.bytes.length)
    (hcap : 8 * (vlqBytes input.length).length
        + (tokensBits config (encode_tokens config input input.length 0)).length
        ≤ 8 * output.length) :
    (lzss_encode config input output).1 = .allGood ∧
    (lzss_encode config input output).2.length ≤ output.length ∧
    (lzss_encode config input output).2.length
      ≤ (lzss_encode config input output).2.bytes.length ∧
    ∃ rest : List Bool,
      bytesBits ((lzss_encode config input output).2.bytes.take
          (lzss_encode config input output).2.length)
        = bytesBits (vlqBytes input.length)
          ++ (tokensBits config (encode_tokens config input input.length 0) ++ rest) := by
  have hs0 : WfW (bit_stream_init output) := by
    refine ⟨by simp [bit_stream_init], by simp [bit_stream_init], by simp [bit_stream_init],
      by simp [bit_stream_init, hout]⟩
  have hw0 : wLen (bit_stream_init output) = 0 := by simp [wLen, bit_stream_init]
  have hb0 : wBits (bit_stream_init output) = [] := by
    simp [wBits, bit_stream_init, natBitsBE, bytesBits]
  have hbl0 : (bit_stream_init output).buffer_length = output.length := rfl
  have hll0 : (bit_stream_init output).buffer.length = output.bytes.length := rfl
  -- header
  rcases hh : bit_stream_write_7bit_uint32 (bit_stream_init output) input.length with ⟨e1, s1⟩
  have ho1 := write_7bit_ok input.length (bit_stream_init output) hs0
    (by rw [hw0, hbl0]; omega)
  rw [hh] at ho1
  obtain ⟨he1, hwf1, hb1, hl1, hbl1, hll1⟩ := ho1
  simp only at he1 hb1 hl1 hbl1 hll1
  subst he1
  rw [hw0] at hl1
  rw [hb0] at hb1
  simp only [List.nil_append] at hb1
  -- token loop
  rcases hloop : lzss_encode_loop config input 0 input.length s1 with ⟨e2, s2⟩
  have ho2 := encode_loop_ok config input hml input.length 0 s1 (by omega) hwf1
    (by rw [hl1, hbl1, hbl0]; omega)
  rw [hloop] at ho2
  obtain ⟨he2, hwf2, hb2, hl2, hbl2, hll2⟩ := ho2
  simp only at he2 hb2 hl2 hbl2 hll2
  subst he2
  -- final flush
  rcases hfl : bit_stream_flush s2 with ⟨e3, s3⟩
  have ho3 := flush_ok s2 hwf2 (by rw [hl2, hl1, hbl2, hbl1, hbl0]; omega)
  rw [hfl] at ho3
  obtain ⟨he3, hc3, hbl3, hll3, hp3, hlen3, hbits3⟩ := ho3
  simp only at he3 hc3 hbl3 hll3 hp3 hlen3 hbits3
  subst he3
  have hres : lzss_encode config input output =
      (.allGood, { bytes := s3.buffer, length := s3.buffer_position }) := by
    unfold lzss_encode
    rw [if_neg (by omega)]
    simp only [hh, hloop, hfl]
  rw [hres]
  refine ⟨rfl, ?_, ?_, ?_⟩
  · show s3.buffer_position ≤ output.length
    rw [hbl2, hbl1, hbl0] at hp3
    exact hp3
  · show s3.buffer_position ≤ s3.buffer.length
    rw [hll3, hll2, hll1, hll0]
    rw [hbl2, hbl1, hbl0] at hp3
    omega
  · refine ⟨List.replicate ((8 - wLen s2 % 8) % 8) false, ?_⟩
    show bytesBits (s3.buffer.take s3.buffer_position) = _
    rw [hbits3, hb2, hb1]
    simp [List.append_assoc]

/-! ### Decoder abstraction -/

/-- Effect of one token on the output list. -/
def apply_token (out : List Nat) (index : Nat) : Token → List Nat
  | .lit b => out.set index b
  | .pair off len => decode_copy out (index - off) index len

def apply_tokens : List Token → List Nat → Nat → List Nat
  | [], out, _ => out
  | t :: ts, out, index => apply_tokens ts (apply_token out index t) (index + token_adv t)

/-- Positional well-formedness of a token stream starting at `index`:
field values fit their widths, pair offsets reach back only into already
reconstructed output, and every token advances. -/
def toks_ok (config : LzssConfig) : Nat → List Token → Prop
  | _, [] => True
  | index, .lit b :: ts => b < 256 ∧ toks_ok config (index + 1) ts
  | index, .pair off len :: ts =>
      1 ≤ off ∧ off ≤ index ∧ off < 2 ^ config.offset_bits ∧
      1 ≤ len ∧ len < 2 ^ config.length_bits ∧ toks_ok config (index + len) ts

theorem getD_set_ne {l : List Nat} {i j : Nat} (h : i ≠ j) (v : Nat) :
    (l.set i v).getD j 0 = l.getD j 0 := by
  simp only [List.getD_eq_getElem?_getD]
  rw [List.getElem?_set_ne h]

theorem getD_set_self {l : List Nat} {i : Nat} (h : i < l.length) (v : Nat) :
    (l.set i v).getD i 0 = v := by
  simp only [List.getD_eq_getElem?_getD]
  rw [List.getElem?_set_self h]
  rfl

theorem length_decode_copy (k : Nat) : ∀ (out : List Nat) (src dst : Nat),
    (decode_copy out src dst k).length = out.length := by
  induction k with
  | zero => intro out src dst; rfl
  | succ k ih =>
      intro out src dst
      show (decode_copy (out.set dst (out.getD src 0)) (src + 1) (dst + 1) k).length = _
      rw [ih, List.length_set]

/-- Correctness of the decoder's forward byte-by-byte copy: if the source
bytes of `B` repeat at the destination (self-overlap allowed) and `out`
agrees with `B` before `dst`, the copy extends the agreement by `k`
positions.  This is where the strictly increasing copy order matters. -/
theorem decode_copy_spec (B : List Nat) : ∀ (k : Nat) (out : List Nat) (src dst : Nat),
    src < dst → dst + k ≤ out.length →
    (∀ j, j < dst → out.getD j 0 = B.getD j 0) →
    (∀ l, l < k → B.getD (src + l) 0 = B.getD (dst + l) 0) →
    (∀ j, j < dst + k → (decode_copy out src dst k).getD j 0 = B.getD j 0) := by
  intro k
  induction k with
  | zero =>
      intro out src dst _ _ hpre _ j hj
      exact hpre j (by omega)
  | succ k ih =>
      intro out src dst hsd hbound hpre hmatch
      show ∀ j, j < dst + (k + 1) →
        (decode_copy (out.set dst (out.getD src 0)) (src + 1) (dst + 1) k).getD j 0 = B.getD j 0
      have hset : out.getD src 0 = B.getD dst 0 := by
        rw [hpre src (by omega)]
        have := hmatch 0 (by omega)
        simpa using this
      have hpre1 : ∀ j, j < dst + 1 → (out.set dst (out.getD src 0)).getD j 0 = B.getD j 0 := by
        intro j hj
        rcases Nat.lt_or_ge j dst with hlt | hge
        · rw [getD_set_ne (by omega), hpre j hlt]
        · have : j = dst := by omega
          subst this
          rw [getD_set_self (by omega), hset]
      intro j hj
      have := ih (out.set dst (out.getD src 0)) (src + 1) (dst + 1) (by omega)
        (by rw [List.length_set]; omega) hpre1
        (by
          intro l hl
          have := hmatch (l + 1) (by omega)
          have e1 : src + 1 + l = src + (l + 1) := by omega
          have e2 : dst + 1 + l = dst + (l + 1) := by omega
          rw [e1, e2]
          exact this)
        j (by omega)
      exact this

theorem length_apply_tokens (ts : List Token) : ∀ (out : List Nat) (index : Nat),
    (apply_tokens ts out index).length = out.length := by
  induction ts with
  | nil => intro out index; rfl
  | cons t ts ih =>
      intro out index
      show (apply_tokens ts (apply_token out index t) (index + token_adv t)).length = _
      rw [ih]
      rcases t with b | ⟨off, len⟩
      · simp [apply_token]
      · simp [apply_token, length_decode_copy]

theorem toks_ok_length_le (config : LzssConfig) :
    ∀ (ts : List Token) (index : Nat), toks_ok config index ts → ts.length ≤ tokens_adv ts := by
  intro ts
  induction ts with
  | nil => intro _ _; simp [tokens_adv]
  | cons t ts ih =>
      intro index hok
      rcases t with b | ⟨off, len⟩
      · obtain ⟨_, hrest⟩ := hok
        have := ih (index + 1) hrest
        simp only [tokens_adv, token_adv, List.length_cons]
        omega
      · obtain ⟨_, _, _, hlen, _, hrest⟩ := hok
        have := ih (index + len) hrest
        simp only [tokens_adv, token_adv, List.length_cons]
        omega

theorem getD_lt_256 {l : List Nat} (h : ∀ b ∈ l, b < 256) (i : Nat) : l.getD i 0 < 256 := by
  rcases Nat.lt_or_ge i l.length with hi | hi
  · simp only [List.getD_eq_getElem?_getD, List.getElem?_eq_getElem hi]
    exact h _ (List.getElem_mem hi)
  · simp only [List.getD_eq_getElem?_getD, List.getElem?_eq_none hi]
    norm_num

theorem encode_tokens_adv (config : LzssConfig) (input : ArrayT)
    (hml : 1 ≤ config.minimum_length) :
    ∀ (fuel index : Nat), input.length ≤ index + fuel →
    tokens_adv (encode_tokens config input fuel index) = input.length - index := by
  intro fuel
  induction fuel with
  | zero =>
      intro index hfuel
      simp only [encode_tokens, tokens_adv]
      omega
  | succ fuel ih =>
      intro index hfuel
      by_cases hidx : index < input.length
      · by_cases hm : (get_longest_match config input index).length ≥ config.minimum_length
        · have htoks : encode_tokens config input (fuel + 1) index =
              .pair (get_longest_match config input index).offset
                    (get_longest_match config input index).length
                :: encode_tokens config input fuel
                     (index + (get_longest_match config input index).length) := by
            conv_lhs => rw [encode_tokens]
            rw [if_pos hidx, if_pos hm]
          have hend := (match_ok config input index hml hm).2.2.2.2.1
          rw [htoks]
          simp only [tokens_adv, token_adv]
          rw [ih (index + (get_longest_match config input index).length) (by omega)]
          omega
        · have htoks : encode_tokens config input (fuel + 1) index =
              .lit (input.bytes.getD index 0) :: encode_tokens config input fuel (index + 1) := by
            conv_lhs => rw [encode_tokens]
            rw [if_pos hidx, if_neg hm]
          rw [htoks]
          simp only [tokens_adv, token_adv]
          rw [ih (index + 1) (by omega)]
          omega
      · have htoks : encode_tokens config input (fuel + 1) index = [] := by
          conv_lhs => rw [encode_tokens]
          rw [if_neg hidx]
        rw [htoks]
        simp only [tokens_adv]
        omega

theorem encode_tokens_toks_ok (ob lb ml : Nat) (input : ArrayT) (hml : 1 ≤ ml)
    (hbytes : ∀ b ∈ input.bytes, b < 256) :
    ∀ (fuel index : Nat), toks_ok (lzss_config_init ob lb ml) index
      (encode_tokens (lzss_config_init ob lb ml) input fuel index) := by
  intro fuel
  induction fuel with
  | zero => intro index; simp [encode_tokens, toks_ok]
  | succ fuel ih =>
      intro index
      set config := lzss_config_init ob lb ml with hconfig
      by_cases hidx : index < input.length
      · by_cases hm : (get_longest_match config input index).length ≥ config.minimum_length
        · have htoks : encode_tokens config input (fuel + 1) index =
              .pair (get_longest_match config input index).offset
                    (get_longest_match config input index).length
                :: encode_tokens config input fuel
                     (index + (get_longest_match config input index).length) := by
            conv_lhs => rw [encode_tokens]
            rw [if_pos hidx, if_pos hm]
          rw [htoks]
          obtain ⟨m1, m2, m3, m4, _, _⟩ := match_ok config input index (by
            rw [hconfig]
            exact hml) hm
          have hmlc : config.minimum_length = ml := rfl
          have hmo : config.max_offset = 2 ^ ob - 1 := rfl
          have hll : config.max_length = 2 ^ lb - 1 := rfl
          have hobc : config.offset_bits = ob := rfl
          have hlbc : config.length_bits = lb := rfl
          refine ⟨m1, m2, ?_, by rw [hmlc] at hm; omega, ?_, ih _⟩
          · rw [hobc]
            rw [hmo] at m3
            have : (0 : Nat) < 2 ^ ob := Nat.pos_pow_of_pos _ (by omega)
            omega
          · rw [hlbc]
            rw [hll] at m4
            have : (0 : Nat) < 2 ^ lb := Nat.pos_pow_of_pos _ (by omega)
            omega
        · have htoks : encode_tokens config input (fuel + 1) index =
              .lit (input.bytes.getD index 0) :: encode_tokens config input fuel (index + 1) := by
            conv_lhs => rw [encode_tokens]
            rw [if_pos hidx, if_neg hm]
          rw [htoks]
          exact ⟨getD_lt_256 hbytes index, ih _⟩
      · have htoks : encode_tokens config input (fuel + 1) index = [] := by
          conv_lhs => rw [encode_tokens]
          rw [if_neg hidx]
        rw [htoks]
        trivial

theorem encode_tokens_rebuild (config : LzssConfig) (input : ArrayT)
    (hml : 1 ≤ config.minimum_length) :
    ∀ (fuel index : Nat) (out : List Nat), input.length ≤ index + fuel →
    out.length = input.length →
    (∀ j, j < index → out.getD j 0 = input.bytes.getD j 0) →
    ∀ j, j < input.length →
      (apply_tokens (encode_tokens config input fuel index) out index).getD j 0
        = input.bytes.getD j 0 := by
  intro fuel
  induction fuel with
  | zero =>
      intro index out hfuel _ hpre j hj
      simp only [encode_tokens, apply_tokens]
      exact hpre j (by omega)
  | succ fuel ih =>
      intro index out hfuel hlen hpre j hj
      by_cases hidx : index < input.length
      · by_cases hm : (get_longest_match config input index).length ≥ config.minimum_length
        · have htoks : encode_tokens config input (fuel + 1) index =
              .pair (get_longest_match config input index).offset
                    (get_longest_match config input index).length
                :: encode_tokens config input fuel
                     (index + (get_longest_match config input index).length) := by
            conv_lhs => rw [encode_tokens]
            rw [if_pos hidx, if_pos hm]
          rw [htoks]
          obtain ⟨m1, m2, _, _, m5, m6⟩ := match_ok config input index hml hm
          show (apply_tokens _ (decode_copy out
              (index - (get_longest_match config input index).offset) index
              (get_longest_match config input index).length)
            (index + token_adv (.pair (get_longest_match config input index).offset
              (get_longest_match config input index).length))).getD j 0 = _
          have hcopy := decode_copy_spec input.bytes
            (get_longest_match config input index).length out
            (index - (get_longest_match config input index).offset) index
            (by omega) (by omega) hpre (fun l hl => m6 l hl)
          exact ih (index + (get_longest_match config input index).length)
            (decode_copy out (index - (get_longest_match config input index).offset) index
              (get_longest_match config input index).length)
            (by omega)
            (by rw [length_decode_copy]; exact hlen)
            (fun j2 hj2 => hcopy j2 hj2) j hj
        · have htoks : encode_tokens config input (fuel + 1) index =
              .lit (input.bytes.getD index 0) :: encode_tokens config input fuel (index + 1) := by
            conv_lhs => rw [encode_tokens]
            rw [if_pos hidx, if_neg hm]
          rw [htoks]
          show (apply_tokens _ (out.set index (input.bytes.getD index 0)) (index + 1)).getD j 0 = _
          refine ih (index + 1) (out.set index (input.bytes.getD index 0)) (by omega)
            (by rw [List.length_set]; exact hlen) ?_ j hj
          intro j2 hj2
          rcases Nat.lt_or_ge j2 index with hlt | hge
          · rw [getD_set_ne (by omega), hpre j2 hlt]
          · have : j2 = index := by omega
            subst this
            rw [getD_set_self (by omega)]
      · have htoks : encode_tokens config input (fuel + 1) index = [] := by
          conv_lhs => rw [encode_tokens]
          rw [if_neg hidx]
        rw [htoks]
        exact hpre j (by omega)

theorem consumed_lt_of_drop_cons {s : BitStream} {b : Bool} {t : List Bool} (hw : WfR s)
    (h : (streamBits s).drop (consumed s) = b :: t) :
    consumed s < 8 * s.buffer_length := by
  have hlenS : (streamBits s).length = 8 * s.buffer_length := length_streamBits s hw.2.2.1
  by_contra hcc
  rw [List.drop_eq_nil_of_le (by omega)] at h
  simp at h

theorem drop_add_of_drop_append {α : Type} {l xs ys : List α} {p : Nat}
    (h : l.drop p = xs ++ ys) : l.drop (p + xs.length) = ys := by
  rw [← List.drop_drop, h, List.drop_left]

/-- The decoder loop replays a well-formed token stream: it succeeds and
transforms the output exactly as `apply_tokens`. -/
theorem decode_loop_ok (config : LzssConfig) (hob : config.offset_bits ≤ 32)
    (hlb : config.length_bits ≤ 32) (outLen : Nat) (h32 : outLen < 2 ^ 32) :
    ∀ (toks : List Token) (fuel index : Nat) (s : BitStream) (out : List Nat)
      (rest : List Bool),
    WfR s →
    (streamBits s).drop (consumed s) = tokensBits config toks ++ rest →
    toks_ok config index toks →
    index + tokens_adv toks = outLen →
    toks.length ≤ fuel →
    (lzss_decode_loop config outLen index fuel s out).1 = .allGood ∧
    (lzss_decode_loop config outLen index fuel s out).2.2 = apply_tokens toks out index := by
  intro toks
  induction toks with
  | nil =>
      intro fuel index s out rest _ _ _ hadv _
      have hidx : index = outLen := by
        simp only [tokens_adv] at hadv
        omega
      cases fuel with
      | zero => exact ⟨rfl, rfl⟩
      | succ fuel =>
          have hres : lzss_decode_loop config outLen index (fuel + 1) s out
              = (.allGood, s, out) := by
            conv_lhs => rw [lzss_decode_loop]
            rw [if_neg (by omega)]
          rw [hres]
          exact ⟨rfl, rfl⟩
  | cons t ts ih =>
      intro fuel index s out rest hw hdrop hok hadv hfuel
      cases fuel with
      | zero => simp at hfuel
      | succ fuel =>
      have hadv1 : 1 ≤ token_adv t := by
        rcases t with b | ⟨off, len⟩
        · simp [token_adv]
        · obtain ⟨_, _, _, hlen, _, _⟩ := hok
          simpa [token_adv] using hlen
      have hidx : index < outLen := by
        simp only [tokens_adv] at hadv
        omega
      rcases t with b | ⟨off, len⟩
      · -- literal token
        obtain ⟨hb, hrest⟩ := hok
        have hdrop' : (streamBits s).drop (consumed s)
            = false :: (natBitsBE b 8 ++ (tokensBits config ts ++ rest)) := by
          rw [hdrop]
          simp [tokensBits, tokenBits]
        obtain ⟨r1, r2, r3, r4, r5, r6⟩ := read_bit_ok s hw
          (consumed_lt_of_drop_cons hw hdrop')
        rcases hrb : bit_stream_read_bit s with ⟨e1, bit, s1⟩
        rw [hrb] at r1 r2 r3 r4 r5 r6
        simp only at r1 r2 r3 r4 r5 r6
        subst r1
        have hbit : bit = 0 := by
          rw [r2, getD_of_drop_cons hdrop']
          rfl
        have hdrop1 : (streamBits s1).drop (consumed s1)
            = natBitsBE b 8 ++ (tokensBits config ts ++ rest) := by
          have hsb : streamBits s1 = streamBits s := by simp only [streamBits, r5, r6]
          rw [hsb, r4]
          exact drop_succ_of_drop_cons hdrop'
        obtain ⟨u1, u2, u3, u4, u5, u6⟩ := read_uint32_ok s1 (natBitsBE b 8)
          (tokensBits config ts ++ rest) r3 hdrop1 (by rw [length_natBitsBE]; norm_num)
        rw [length_natBitsBE] at u1 u2 u3 u4 u5 u6
        rcases hru : bit_stream_read_uint32 s1 8 with ⟨e2, literal, s2⟩
        rw [hru] at u1 u2 u3 u4 u5 u6
        simp only at u1 u2 u3 u4 u5 u6
        subst u1
        have hlit : literal = b := by
          rw [u2, bitsToNat_natBitsBE_of_lt (by omega)]
        have hres : lzss_decode_loop config outLen index (fuel + 1) s out
            = lzss_decode_loop config outLen (index + 1) fuel s2
                (out.set index (literal % 256)) := by
          conv_lhs => rw [lzss_decode_loop]
          rw [if_pos hidx]
          simp only [hrb, hbit]
          norm_num
          simp only [hru]
        rw [hres]
        have hdrop2 : (streamBits s2).drop (consumed s2) = tokensBits config ts ++ rest := by
          have hsb : streamBits s2 = streamBits s1 := by simp only [streamBits, u5, u6]
          have hstep := drop_add_of_drop_append hdrop1
          rw [length_natBitsBE] at hstep
          rw [hsb, u4]
          exact hstep
        obtain ⟨g1, g2⟩ := ih fuel (index + 1) s2 (out.set index (literal % 256)) rest u3
          hdrop2 hrest (by simp only [tokens_adv, token_adv] at hadv ⊢; omega)
          (by simp only [List.length_cons] at hfuel; omega)
        refine ⟨g1, ?_⟩
        rw [g2]
        show _ = apply_tokens ts (apply_token out index (.lit b)) (index + token_adv (.lit b))
        simp only [apply_token, token_adv]
        rw [hlit, Nat.mod_eq_of_lt hb]
      · -- pair token
        obtain ⟨hoff1, hoff2, hoff3, hlen1, hlen2, hrest⟩ := hok
        have hdrop' : (streamBits s).drop (consumed s)
            = true :: (natBitsBE off config.offset_bits
                ++ (natBitsBE len config.length_bits ++ (tokensBits config ts ++ rest))) := by
          rw [hdrop]
          simp [tokensBits, tokenBits]
        obtain ⟨r1, r2, r3, r4, r5, r6⟩ := read_bit_ok s hw
          (consumed_lt_of_drop_cons hw hdrop')
        rcases hrb : bit_stream_read_bit s with ⟨e1, bit, s1⟩
        rw [hrb] at r1 r2 r3 r4 r5 r6
        simp only at r1 r2 r3 r4 r5 r6
        subst r1
        have hbit : bit = 1 := by
          rw [r2, getD_of_drop_cons hdrop']
          rfl
        have hdrop1 : (streamBits s1).drop (consumed s1)
            = natBitsBE off config.offset_bits
                ++ (natBitsBE len config.length_bits ++ (tokensBits config ts ++ rest)) := by
          have hsb : streamBits s1 = streamBits s := by simp only [streamBits, r5, r6]
          rw [hsb, r4]
          exact drop_succ_of_drop_cons hdrop'
        obtain ⟨u1, u2, u3, u4, u5, u6⟩ := read_uint32_ok s1 (natBitsBE off config.offset_bits)
          (natBitsBE len config.length_bits ++ (tokensBits config ts ++ rest)) r3 hdrop1
          (by rw [length_natBitsBE]; exact hob)
        rw [length_natBitsBE] at u1 u2 u3 u4 u5 u6
        rcases hru : bit_stream_read_uint32 s1 config.offset_bits with ⟨e2, offv, s2⟩
        rw [hru] at u1 u2 u3 u4 u5 u6
        simp only at u1 u2 u3 u4 u5 u6
        subst u1
        have hoffv : offv = off := by
          rw [u2, bitsToNat_natBitsBE_of_lt hoff3]
        have hdrop2 : (streamBits s2).drop (consumed s2)
            = natBitsBE len config.length_bits ++ (tokensBits config ts ++ rest) := by
          have hsb : streamBits s2 = streamBits s1 := by simp only [streamBits, u5, u6]
          have hstep := drop_add_of_drop_append hdrop1
          rw [length_natBitsBE] at hstep
          rw [hsb, u4]
          exact hstep
        obtain ⟨v1, v2, v3, v4, v5, v6⟩ := read_uint32_ok s2 (natBitsBE len config.length_bits)
          (tokensBits config ts ++ rest) u3 hdrop2 (by rw [length_natBitsBE]; exact hlb)
        rw [length_natBitsBE] at v1 v2 v3 v4 v5 v6
        rcases hrv : bit_stream_read_uint32 s2 config.length_bits with ⟨e3, lenv, s3⟩
        rw [hrv] at v1 v2 v3 v4 v5 v6
        simp only at v1 v2 v3 v4 v5 v6
        subst v1
        have hlenv : lenv = len := by
          rw [v2, bitsToNat_natBitsBE_of_lt hlen2]
        have hsub : (index + 4294967296 - offv) % 4294967296 = index - off := by
          rw [hoffv]
          have h1 : index + 4294967296 - off = (index - off) + 4294967296 := by omega
          rw [h1, Nat.add_mod_right]
          apply Nat.mod_eq_of_lt
          have : (4294967296 : Nat) = 2 ^ 32 := by norm_num
          omega
        have hres : lzss_decode_loop config outLen index (fuel + 1) s out
            = lzss_decode_loop config outLen (index + lenv) fuel s3
                (decode_copy out ((index + 4294967296 - offv) % 4294967296) index lenv) := by
          conv_lhs => rw [lzss_decode_loop]
          rw [if_pos hidx]
          simp only [hrb, hbit]
          norm_num
          simp only [hru, hrv]
        rw [hres]
        have hdrop3 : (streamBits s3).drop (consumed s3) = tokensBits config ts ++ rest := by
          have hsb : streamBits s3 = streamBits s2 := by simp only [streamBits, v5, v6]
          have hstep := drop_add_of_drop_append hdrop2
          rw [length_natBitsBE] at hstep
          rw [hsb, v4]
          exact hstep
        obtain ⟨g1, g2⟩ := ih fuel (index + lenv) s3
          (decode_copy out ((index + 4294967296 - offv) % 4294967296) index lenv) rest v3
          hdrop3 (by rw [hlenv]; exact hrest)
          (by rw [hlenv]; simp only [tokens_adv, token_adv] at hadv ⊢; omega)
          (by simp only [List.length_cons] at hfuel; omega)
        refine ⟨g1, ?_⟩
        rw [g2]
        show _ = apply_tokens ts (apply_token out index (.pair off len))
          (index + token_adv (.pair off len))
        simp only [apply_token, token_adv]
        rw [hlenv, hsub]

theorem list_eq_of_getD {l1 l2 : List Nat} (hlen : l1.length = l2.length)
    (h : ∀ j, j < l1.length → l1.getD j 0 = l2.getD j 0) : l1 = l2 := by
  apply List.ext_getElem hlen
  intro i h1 h2
  have hx := h i h1
  rw [List.getD_eq_getElem?_getD, List.getD_eq_getElem?_getD,
    List.getElem?_eq_getElem h1, List.getElem?_eq_getElem h2] at hx
  exact hx

/-- Main round-trip: whenever the upper-bound style capacity assumption
holds (header plus token bits fit in the output buffer), encoding succeeds
and decoding the produced buffer into any buffer of the input's length
reproduces the input exactly. -/
theorem lzss_round_trip (ob lb ml : Nat) (input output : ArrayT) (decInit : List Nat)
    (hml : 1 ≤ ml) (hob : ob ≤ 32) (hlb : lb ≤ 32)
    (hbytes : ∀ b ∈ input.bytes, b < 256)
    (hblen : input.bytes.length = input.length)
    (hn : 1 ≤ input.length) (h32 : input.length < 2 ^ 32)
    (hout : output.length ≤ output.bytes.length)
    (hcap : 8 * (vlqBytes input.length).length
        + (tokensBits (lzss_config_init ob lb ml)
            (encode_tokens (lzss_config_init ob lb ml) input input.length 0)).length
        ≤ 8 * output.length)
    (hdec : decInit.length = input.length) :
    (lzss_encode (lzss_config_init ob lb ml) input output).1 = .allGood ∧
    lzss_decode (lzss_config_init ob lb ml)
        (lzss_encode (lzss_config_init ob lb ml) input output).2
        { bytes := decInit, length := input.length }
      = (.allGood, { bytes := input.bytes, length := input.length }) := by
  set config := lzss_config_init ob lb ml with hconfig
  obtain ⟨e1, e2, e3, rest, e4⟩ := lzss_encode_ok config input output hml hn hout hcap
  refine ⟨e1, ?_⟩
  set encOut := (lzss_encode config input output).2 with hencOut
  have hvlql : 1 ≤ (vlqBytes input.length).length := vlqBytes_len_pos hn
  -- the produced byte count is at least the header
  have htake : (encOut.bytes.take encOut.length).length = encOut.length := by
    rw [List.length_take]
    omega
  have hlen4 : 8 * encOut.length
      = 8 * (vlqBytes input.length).length
        + ((tokensBits config (encode_tokens config input input.length 0)).length
           + rest.length) := by
    have := congrArg List.length e4
    rw [length_bytesBits, htake] at this
    simp only [List.length_append, length_bytesBits] at this
    omega
  have hpos1 : 1 ≤ encOut.length := by omega
  -- decoder setup
  have hinit : WfR (bit_stream_init encOut) := by
    refine ⟨by simp [bit_stream_init], by simp [bit_stream_init],
      by simp [bit_stream_init]; omega, by simp [bit_stream_init]⟩
  have hcon0 : consumed (bit_stream_init encOut) = 0 := by simp [consumed, bit_stream_init]
  have hsb0 : streamBits (bit_stream_init encOut)
      = bytesBits (vlqBytes input.length)
        ++ (tokensBits config (encode_tokens config input input.length 0) ++ rest) := by
    show bytesBits (encOut.bytes.take encOut.length) = _
    exact e4
  have hdrop0 : (streamBits (bit_stream_init encOut)).drop
      (consumed (bit_stream_init encOut))
      = bytesBits (vlqBytes input.length)
        ++ (tokensBits config (encode_tokens config input input.length 0) ++ rest) := by
    rw [hcon0, List.drop_zero, hsb0]
  obtain ⟨d1, d2, d3, d4, d5, d6⟩ := read_7bit_ok (bit_stream_init encOut) input.length
    (tokensBits config (encode_tokens config input input.length 0) ++ rest)
    hinit hdrop0 hn h32
  rcases hd : bit_stream_read_7bit_uint32 (bit_stream_init encOut) with ⟨ed, original_size, s1⟩
  rw [hd] at d1 d2 d3 d4 d5 d6
  simp only at d1 d2 d3 d4 d5 d6
  subst d1
  have hdrop1 : (streamBits s1).drop (consumed s1)
      = tokensBits config (encode_tokens config input input.length 0) ++ rest := by
    have hsb : streamBits s1 = streamBits (bit_stream_init encOut) := by
      simp only [streamBits, d5, d6]
    have hstep := drop_add_of_drop_append hdrop0
    rw [length_bytesBits] at hstep
    rw [hsb, d4, hcon0]
    rw [hcon0] at hstep
    simpa using hstep
  have hadv : 0 + tokens_adv (encode_tokens config input input.length 0) = input.length := by
    rw [encode_tokens_adv config input hml input.length 0 (by omega)]
    omega
  have hok : toks_ok config 0 (encode_tokens config input input.length 0) :=
    encode_tokens_toks_ok ob lb ml input hml hbytes input.length 0
  have hcount : (encode_tokens config input input.length 0).length ≤ input.length := by
    have := toks_ok_length_le config (encode_tokens config input input.length 0) 0 hok
    omega
  obtain ⟨g1, g2⟩ := decode_loop_ok config (by rw [hconfig]; exact hob)
    (by rw [hconfig]; exact hlb) input.length h32
    (encode_tokens config input input.length 0) input.length 0 s1 decInit rest
    d3 hdrop1 hok hadv hcount
  rcases hloop : lzss_decode_loop config input.length 0 input.length s1 decInit
    with ⟨eg, sg, outg⟩
  rw [hloop] at g1 g2
  simp only at g1 g2
  subst g1
  -- the reconstructed bytes equal the input
  have hre : outg = input.bytes := by
    rw [g2]
    apply list_eq_of_getD
    · rw [length_apply_tokens, hdec, hblen]
    · intro j hj
      rw [length_apply_tokens, hdec] at hj
      exact encode_tokens_rebuild config input hml input.length 0 decInit (by omega) hdec
        (by omega) j hj
  -- assemble lzss_decode
  have hres : lzss_decode config encOut { bytes := decInit, length := input.length }
      = (.allGood, { bytes := outg, length := input.length }) := by
    have hne0 : ¬ (encOut.length = 0
        ∨ ({ bytes := decInit, length := input.length } : ArrayT).length = 0) := by
      push_neg
      refine ⟨by omega, ?_⟩
      show input.length ≠ 0
      omega
    have hsz : ¬ (original_size ≠ ({ bytes := decInit, length := input.length } : ArrayT).length) := by
      show ¬ (original_size ≠ input.length)
      rw [d2]
      simp
    unfold lzss_decode
    rw [if_neg hne0]
    simp only [hd]
    rw [if_neg hsz]
    simp only [hloop]
  rw [hres, hre]

/-- Per-token bit budget: when a pair token (1 + offset_bits + length_bits
bits) costs at most 9 bits per consumed byte, the whole token stream fits
in 9 bits per input byte. -/
theorem tokensBits_budget (config : LzssConfig) (input : ArrayT)
    (hml : 1 ≤ config.minimum_length)
    (hbudget : 1 + config.offset_bits + config.length_bits ≤ 9 * config.minimum_length) :
    ∀ (fuel index : Nat),
    (tokensBits config (encode_tokens config input fuel index)).length
      ≤ 9 * (input.length - index) := by
  intro fuel
  induction fuel with
  | zero => intro index; simp [encode_tokens, tokensBits]
  | succ fuel ih =>
      intro index
      by_cases hidx : index < input.length
      · by_cases hm : (get_longest_match config input index).length ≥ config.minimum_length
        · have htoks : encode_tokens config input (fuel + 1) index =
              .pair (get_longest_match config input index).offset
                    (get_longest_match config input index).length
                :: encode_tokens config input fuel
                     (index + (get_longest_match config input index).length) := by
            conv_lhs => rw [encode_tokens]
            rw [if_pos hidx, if_pos hm]
          rw [htoks]
          simp only [tokensBits, tokenBits, List.length_append, List.length_cons,
            length_natBitsBE]
          have hend := (match_ok config input index hml hm).2.2.2.2.1
          have hrec := ih (index + (get_longest_match config input index).length)
          have hml9 : 9 * config.minimum_length
              ≤ 9 * (get_longest_match config input index).length := by
            have := hm
            omega
          omega
        · have htoks : encode_tokens config input (fuel + 1) index =
              .lit (input.bytes.getD index 0) :: encode_tokens config input fuel (index + 1) := by
            conv_lhs => rw [encode_tokens]
            rw [if_pos hidx, if_neg hm]
          rw [htoks]
          simp only [tokensBits, tokenBits, List.length_append, List.length_cons,
            length_natBitsBE]
          have hrec := ih (index + 1)
          omega
      · have htoks : encode_tokens config input (fuel + 1) index = [] := by
          conv_lhs => rw [encode_tokens]
          rw [if_neg hidx]
        rw [htoks]
        simp [tokensBits]

/-- For inputs below 2^28 the upper-bound formula really provides
32 + 9n bits (no uint32 overflow in `32 + input_length * 9`). -/
theorem upper_bound_bits {n : Nat} (h : n < 2 ^ 28) :
    32 + 9 * n ≤ 8 * lzss_get_upper_bound n := by
  have hnw : (32 + n * 9) % 4294967296 = 32 + n * 9 := by
    apply Nat.mod_eq_of_lt
    have : n * 9 < 2 ^ 28 * 9 := by omega
    norm_num at this ⊢
    omega
  unfold lzss_get_upper_bound
  simp only [hnw]
  rcases Nat.eq_zero_or_pos ((32 + n * 9) % 8) with h8 | h8
  · rw [h8]
    norm_num
    omega
  · rw [if_pos h8]
    omega

/-- The full capacity assumption of `lzss_round_trip` follows from the
9-bits-per-byte budget, `n < 2^28` and an `upper_bound`-sized buffer. -/
theorem capacity_ok (ob lb ml : Nat) (input : ArrayT) (hml : 1 ≤ ml)
    (hbudget : 1 + ob + lb ≤ 9 * ml) (h28 : input.length < 2 ^ 28) (cap : Nat)
    (hcap : lzss_get_upper_bound input.length ≤ cap) :
    8 * (vlqBytes input.length).length
      + (tokensBits (lzss_config_init ob lb ml)
          (encode_tokens (lzss_config_init ob lb ml) input input.length 0)).length
      ≤ 8 * cap := by
  have hvlq : (vlqBytes input.length).length ≤ 4 :=
    vlqBytes_len_le 4 input.length (by norm_num at h28 ⊢; omega)
  have htoks := tokensBits_budget (lzss_config_init ob lb ml) input hml
    (by
      show 1 + (lzss_config_init ob lb ml).offset_bits + (lzss_config_init ob lb ml).length_bits
        ≤ 9 * (lzss_config_init ob lb ml).minimum_length
      exact hbudget)
    input.length 0
  have hub := upper_bound_bits h28
  omega

/-! ### Failure characterisation and unconditional invariants -/

theorem wLen_le {s : BitStream} (hw : WfW s) : wLen s ≤ 8 * s.buffer_length + 7 := by
  obtain ⟨hc, _, hp, _⟩ := hw
  simp only [wLen]
  omega

/-- Writing more bits than the remaining room must fail (the first write
past the boundary reports BufferOutOfBounds). -/
theorem write_uint32_fail (w : Nat) : ∀ (s : BitStream) (number : Nat), WfW s →
    8 * s.buffer_length + 7 < wLen s + w →
    (bit_stream_write_uint32 s number w).1 = .bufferOutOfBounds := by
  induction w with
  | zero =>
      intro s number hw hcap
      have := wLen_le hw
      omega
  | succ w ih =>
      intro s number hw hcap
      by_cases hfull : wLen s = 8 * s.buffer_length + 7
      · have hres : bit_stream_write_uint32 s number (w + 1)
            = (.bufferOutOfBounds,
                { s with byte_buffer := s.byte_buffer * 2 % 256
                    + (if number.testBit w then 1 else 0) % 2, bit_count := 8 }) := by
          show (match bit_stream_write_bit s (if number.testBit w then 1 else 0) with
            | (.allGood, s1) => bit_stream_write_uint32 s1 number w
            | (e, s1) => (e, s1)) = _
          rw [write_bit_fail s (if number.testBit w then 1 else 0) hw hfull]
        rw [hres]
      · rcases hrw : bit_stream_write_bit s (if number.testBit w then 1 else 0) with ⟨e, s1⟩
        have hok := write_bit_ok s (if number.testBit w then 1 else 0) hw hfull
        rw [hrw] at hok
        obtain ⟨he, hw1, _, hl1, hbl1, _⟩ := hok
        simp only at he hl1 hbl1
        subst he
        have hres : bit_stream_write_uint32 s number (w + 1)
            = bit_stream_write_uint32 s1 number w := by
          show (match bit_stream_write_bit s (if number.testBit w then 1 else 0) with
            | (.allGood, s1) => bit_stream_write_uint32 s1 number w
            | (e, s1) => (e, s1)) = _
          rw [hrw]
        rw [hres]
        exact ih s1 number hw1 (by omega)

/-- If the token bits cannot fit, the encoder loop fails. -/
theorem encode_loop_fail (config : LzssConfig) (input : ArrayT) :
    ∀ (fuel index : Nat) (s : BitStream), WfW s →
    8 * s.buffer_length + 7
      < wLen s + (tokensBits config (encode_tokens config input fuel index)).length →
    (lzss_encode_loop config input index fuel s).1 = .bufferOutOfBounds := by
  intro fuel
  induction fuel with
  | zero =>
      intro index s hw hcap
      simp only [encode_tokens, tokensBits, List.length_nil] at hcap
      have := wLen_le hw
      omega
  | succ fuel ih =>
      intro index s hw hcap
      by_cases hidx : index < input.length
      · by_cases hm : (get_longest_match config input index).length ≥ config.minimum_length
        · have htoks : encode_tokens config input (fuel + 1) index =
              .pair (get_longest_match config input index).offset
                    (get_longest_match config input index).length
                :: encode_tokens config input fuel
                     (index + (get_longest_match config input index).length) := by
            conv_lhs => rw [encode_tokens]
            rw [if_pos hidx, if_pos hm]
          rw [htoks] at hcap
          simp only [tokensBits, tokenBits, List.length_cons, List.length_append,
            length_natBitsBE] at hcap
          by_cases h1 : wLen s = 8 * s.buffer_length + 7
          · have hres : lzss_encode_loop config input index (fuel + 1) s
                = (.bufferOutOfBounds,
                    { s with byte_buffer := s.byte_buffer * 2 % 256 + 1 % 2,
                             bit_count := 8 }) := by
              conv_lhs => rw [lzss_encode_loop]
              rw [if_pos hidx, if_pos hm]
              simp only [write_bit_fail s 1 hw h1]
            rw [hres]
          · rcases hw1 : bit_stream_write_bit s 1 with ⟨e1, s1⟩
            have ho1 := write_bit_ok s 1 hw h1
            rw [hw1] at ho1
            obtain ⟨he1, hwf1, _, hl1, hbl1, _⟩ := ho1
            simp only at he1 hl1 hbl1
            subst he1
            by_cases h2 : wLen s1 + config.offset_bits ≤ 8 * s1.buffer_length + 7
            · rcases hw2 : bit_stream_write_uint32 s1
                  (get_longest_match config input index).offset config.offset_bits with ⟨e2, s2⟩
              have ho2 := write_uint32_ok config.offset_bits s1
                (get_longest_match config input index).offset hwf1 h2
              rw [hw2] at ho2
              obtain ⟨he2, hwf2, _, hl2, hbl2, _⟩ := ho2
              simp only at he2 hl2 hbl2
              subst he2
              by_cases h3 : wLen s2 + config.length_bits ≤ 8 * s2.buffer_length + 7
              · rcases hw3 : bit_stream_write_uint32 s2
                    (get_longest_match config input index).length config.length_bits with ⟨e3, s3⟩
                have ho3 := write_uint32_ok config.length_bits s2
                  (get_longest_match config input index).length hwf2 h3
                rw [hw3] at ho3
                obtain ⟨he3, hwf3, _, hl3, hbl3, _⟩ := ho3
                simp only at he3 hl3 hbl3
                subst he3
                have hres : lzss_encode_loop config input index (fuel + 1) s
                    = lzss_encode_loop config input
                        (index + (get_longest_match config input index).length) fuel s3 := by
                  conv_lhs => rw [lzss_encode_loop]
                  rw [if_pos hidx, if_pos hm]
                  simp only [hw1, hw2, hw3]
                rw [hres]
                exact ih (index + (get_longest_match config input index).length) s3 hwf3
                  (by rw [hl3, hl2, hl1] at *; omega)
              · rcases hw3 : bit_stream_write_uint32 s2
                    (get_longest_match config input index).length config.length_bits with ⟨e3, s3⟩
                have hf3 := write_uint32_fail config.length_bits s2
                  (get_longest_match config input index).length hwf2 (by omega)
                rw [hw3] at hf3
                simp only at hf3
                subst hf3
                have hres : lzss_encode_loop config input index (fuel + 1) s
                    = (.bufferOutOfBounds, s3) := by
                  conv_lhs => rw [lzss_encode_loop]
                  rw [if_pos hidx, if_pos hm]
                  simp only [hw1, hw2, hw3]
                rw [hres]
            · rcases hw2 : bit_stream_write_uint32 s1
                  (get_longest_match config input index).offset config.offset_bits with ⟨e2, s2⟩
              have hf2 := write_uint32_fail config.offset_bits s1
                (get_longest_match config input index).offset hwf1 (by omega)
              rw [hw2] at hf2
              simp only at hf2
              subst hf2
              have hres : lzss_encode_loop config input index (fuel + 1) s
                  = (.bufferOutOfBounds, s2) := by
                conv_lhs => rw [lzss_encode_loop]
                rw [if_pos hidx, if_pos hm]
                simp only [hw1, hw2]
              rw [hres]
        · have htoks : encode_tokens config input (fuel + 1) index =
              .lit (input.bytes.getD index 0) :: encode_tokens config input fuel (index + 1) := by
            conv_lhs => rw [encode_tokens]
            rw [if_pos hidx, if_neg hm]
          rw [htoks] at hcap
          simp only [tokensBits, tokenBits, List.length_cons, List.length_append,
            length_natBitsBE] at hcap
          by_cases h1 : wLen s = 8 * s.buffer_length + 7
          · have hres : lzss_encode_loop config input index (fuel + 1) s
                = (.bufferOutOfBounds,
                    { s with byte_buffer := s.byte_buffer * 2 % 256 + 0 % 2,
                             bit_count := 8 }) := by
              conv_lhs => rw [lzss_encode_loop]
              rw [if_pos hidx, if_neg hm]
              simp only [write_bit_fail s 0 hw h1]
            rw [hres]
          · rcases hw1 : bit_stream_write_bit s 0 with ⟨e1, s1⟩
            have ho1 := write_bit_ok s 0 hw h1
            rw [hw1] at ho1
            obtain ⟨he1, hwf1, _, hl1, hbl1, _⟩ := ho1
            simp only at he1 hl1 hbl1
            subst he1
            by_cases h2 : wLen s1 + 8 ≤ 8 * s1.buffer_length + 7
            · rcases hw2 : bit_stream_write_uint32 s1 (input.bytes.getD index 0) 8 with ⟨e2, s2⟩
              have ho2 := write_uint32_ok 8 s1 (input.bytes.getD index 0) hwf1 h2
              rw [hw2] at ho2
              obtain ⟨he2, hwf2, _, hl2, hbl2, _⟩ := ho2
              simp only at he2 hl2 hbl2
              subst he2
              have hres : lzss_encode_loop config input index (fuel + 1) s
                  = lzss_encode_loop config input (index + 1) fuel s2 := by
                conv_lhs => rw [lzss_encode_loop]
                rw [if_pos hidx, if_neg hm]
                simp only [hw1, hw2]
              rw [hres]
              exact ih (index + 1) s2 hwf2 (by rw [hl2, hl1] at *; omega)
            · rcases hw2 : bit_stream_write_uint32 s1 (input.bytes.getD index 0) 8 with ⟨e2, s2⟩
              have hf2 := write_uint32_fail 8 s1 (input.bytes.getD index 0) hwf1 (by omega)
              rw [hw2] at hf2
              simp only at hf2
              subst hf2
              have hres : lzss_encode_loop config input index (fuel + 1) s
                  = (.bufferOutOfBounds, s2) := by
                conv_lhs => rw [lzss_encode_loop]
                rw [if_pos hidx, if_neg hm]
                simp only [hw1, hw2]
              rw [hres]
      · have htoks : encode_tokens config input (fuel + 1) index = [] := by
          conv_lhs => rw [encode_tokens]
          rw [if_neg hidx]
        rw [htoks] at hcap
        simp only [tokensBits, List.length_nil] at hcap
        have := wLen_le hw
        omega

/-- The buffer length field is never modified, and the cursor never passes
it, whatever state the stream is in (needed to reason about `lzss_encode`'s
reported length even on exotic paths). -/
theorem pos_le_flush (s : BitStream) :
    (bit_stream_flush s).2.buffer_length = s.buffer_length ∧
    (s.buffer_position ≤ s.buffer_length →
      (bit_stream_flush s).2.buffer_position ≤ s.buffer_length) := by
  unfold bit_stream_flush
  by_cases h0 : s.bit_count = 0
  · rw [if_pos h0]
    exact ⟨rfl, fun h => h⟩
  · rw [if_neg h0]
    by_cases hp : s.buffer_position ≥ s.buffer_length
    · rw [if_pos hp]
      exact ⟨rfl, fun h => h⟩
    · rw [if_neg hp]
      exact ⟨rfl, fun _ => by simp only []; omega⟩

theorem pos_le_write_bit (s : BitStream) (b : Nat) :
    (bit_stream_write_bit s b).2.buffer_length = s.buffer_length ∧
    (s.buffer_position ≤ s.buffer_length →
      (bit_stream_write_bit s b).2.buffer_position ≤ s.buffer_length) := by
  unfold bit_stream_write_bit
  by_cases h8 : (s.bit_count + 1) % 256 = 8
  · rw [if_pos h8]
    exact pos_le_flush _
  · rw [if_neg h8]
    exact ⟨rfl, fun h => h⟩

theorem pos_le_write_uint32 (w : Nat) : ∀ (s : BitStream) (number : Nat),
    (bit_stream_write_uint32 s number w).2.buffer_length = s.buffer_length ∧
    (s.buffer_position ≤ s.buffer_length →
      (bit_stream_write_uint32 s number w).2.buffer_position ≤ s.buffer_length) := by
  induction w with
  | zero => intro s number; exact ⟨rfl, fun h => h⟩
  | succ w ih =>
      intro s number
      rcases hrw : bit_stream_write_bit s (if number.testBit w then 1 else 0) with ⟨e, s1⟩
      have hb := pos_le_write_bit s (if number.testBit w then 1 else 0)
      rw [hrw] at hb
      simp only at hb
      have hres : bit_stream_write_uint32 s number (w + 1)
          = match (e, s1) with
            | (.allGood, s1) => bit_stream_write_uint32 s1 number w
            | (e, s1) => (e, s1) := by
        show (match bit_stream_write_bit s (if number.testBit w then 1 else 0) with
          | (.allGood, s1) => bit_stream_write_uint32 s1 number w
          | (e, s1) => (e, s1)) = _
        rw [hrw]
      cases e <;> rw [hres] <;> simp only []
      case allGood =>
        have := ih s1 number
        refine ⟨by rw [this.1, hb.1], fun h => ?_⟩
        rw [← hb.1]
        exact this.2 (by rw [hb.1]; exact hb.2 h)
      all_goals exact ⟨hb.1, hb.2⟩

theorem pos_le_write_7bit (n : Nat) : ∀ (s : BitStream),
    (bit_stream_write_7bit_uint32 s n).2.buffer_length = s.buffer_length ∧
    (s.buffer_position ≤ s.buffer_length →
      (bit_stream_write_7bit_uint32 s n).2.buffer_position ≤ s.buffer_length) := by
  induction n using Nat.strong_induction_on with
  | _ n ih =>
    intro s
    rcases Nat.lt_or_ge 127 n with h127 | h127
    · rcases hrw : bit_stream_write_uint32 s (128 ||| n &&& 127) 8 with ⟨e, s1⟩
      have hb := pos_le_write_uint32 8 s (128 ||| n &&& 127)
      rw [hrw] at hb
      simp only at hb
      have hres : bit_stream_write_7bit_uint32 s n
          = match (e, s1) with
            | (.allGood, s1) => bit_stream_write_7bit_uint32 s1 (n / 128)
            | (e, s1) => (e, s1) := by
        conv_lhs => rw [bit_stream_write_7bit_uint32]
        rw [if_pos h127, hrw]
      cases e <;> rw [hres] <;> simp only []
      case allGood =>
        have := ih (n / 128) (Nat.div_lt_self (by omega) (by omega)) s1
        refine ⟨by rw [this.1, hb.1], fun h => ?_⟩
        rw [← hb.1]
        exact this.2 (by rw [hb.1]; exact hb.2 h)
      all_goals exact ⟨hb.1, hb.2⟩
    · by_cases h0 : n > 0
      · have hres : bit_stream_write_7bit_uint32 s n
            = (.allGood, (bit_stream_write_uint32 s (n &&& 127) 8).2) := by
          conv_lhs => rw [bit_stream_write_7bit_uint32]
          rw [if_neg (by omega), if_pos h0]
        rw [hres]
        exact pos_le_write_uint32 8 s (n &&& 127)
      · have hres : bit_stream_write_7bit_uint32 s n = (.allGood, s) := by
          conv_lhs => rw [bit_stream_write_7bit_uint32]
          rw [if_neg (by omega), if_neg h0]
        rw [hres]
        exact ⟨rfl, fun h => h⟩

theorem pos_le_comp {s r t : BitStream}
    (h1 : r.buffer_length = s.buffer_length ∧
      (s.buffer_position ≤ s.buffer_length → r.buffer_position ≤ s.buffer_length))
    (h2 : t.buffer_length = r.buffer_length ∧
      (r.buffer_position ≤ r.buffer_length → t.buffer_position ≤ r.buffer_length)) :
    t.buffer_length = s.buffer_length ∧
    (s.buffer_position ≤ s.buffer_length → t.buffer_position ≤ s.buffer_length) := by
  obtain ⟨a1, a2⟩ := h1
  obtain ⟨b1, b2⟩ := h2
  refine ⟨by rw [b1, a1], fun h => ?_⟩
  have hb := b2 (by rw [a1]; exact a2 h)
  rw [a1] at hb
  exact hb

theorem pos_le_encode_loop (config : LzssConfig) (input : ArrayT) :
    ∀ (fuel index : Nat) (s : BitStream),
    (lzss_encode_loop config input index fuel s).2.buffer_length = s.buffer_length ∧
    (s.buffer_position ≤ s.buffer_length →
      (lzss_encode_loop config input index fuel s).2.buffer_position ≤ s.buffer_length) := by
  intro fuel
  induction fuel with
  | zero => intro index s; exact ⟨rfl, fun h => h⟩
  | succ fuel ih =>
      intro index s
      by_cases hidx : index < input.length
      · by_cases hm : (get_longest_match config input index).length ≥ config.minimum_length
        · rcases hw1 : bit_stream_write_bit s 1 with ⟨e1, s1⟩
          have hb1 := pos_le_write_bit s 1
          rw [hw1] at hb1
          simp only at hb1
          cases e1
          · rcases hw2 : bit_stream_write_uint32 s1
                (get_longest_match config input index).offset config.offset_bits with ⟨e2, s2⟩
            have hb2 := pos_le_write_uint32 config.offset_bits s1
              (get_longest_match config input index).offset
            rw [hw2] at hb2
            simp only at hb2
            cases e2
            · rcases hw3 : bit_stream_write_uint32 s2
                  (get_longest_match config input index).length config.length_bits with ⟨e3, s3⟩
              have hb3 := pos_le_write_uint32 config.length_bits s2
                (get_longest_match config input index).length
              rw [hw3] at hb3
              simp only at hb3
              cases e3
              · have hres : lzss_encode_loop config input index (fuel + 1) s
                    = lzss_encode_loop config input
                        (index + (get_longest_match config input index).length) fuel s3 := by
                  conv_lhs => rw [lzss_encode_loop]
                  rw [if_pos hidx, if_pos hm]
                  simp only [hw1, hw2, hw3]
                rw [hres]
                exact pos_le_comp (pos_le_comp (pos_le_comp hb1 hb2) hb3)
                  (ih (index + (get_longest_match config input index).length) s3)
              all_goals
                (have hres : (lzss_encode_loop config input index (fuel + 1) s).2 = s3 := by
                  conv_lhs => rw [lzss_encode_loop]
                  rw [if_pos hidx, if_pos hm]
                  simp only [hw1, hw2, hw3]
                 rw [hres]
                 exact pos_le_comp (pos_le_comp hb1 hb2) hb3)
            all_goals
              (have hres : (lzss_encode_loop config input index (fuel + 1) s).2 = s2 := by
                conv_lhs => rw [lzss_encode_loop]
                rw [if_pos hidx, if_pos hm]
                simp only [hw1, hw2]
               rw [hres]
               exact pos_le_comp hb1 hb2)
          all_goals
            (have hres : (lzss_encode_loop config input index (fuel + 1) s).2 = s1 := by
              conv_lhs => rw [lzss_encode_loop]
              rw [if_pos hidx, if_pos hm]
              simp only [hw1]
             rw [hres]
             exact hb1)
        · rcases hw1 : bit_stream_write_bit s 0 with ⟨e1, s1⟩
          have hb1 := pos_le_write_bit s 0
          rw [hw1] at hb1
          simp only at hb1
          cases e1
          · rcases hw2 : bit_stream_write_uint32 s1 (input.bytes.getD index 0) 8 with ⟨e2, s2⟩
            have hb2 := pos_le_write_uint32 8 s1 (input.bytes.getD index 0)
            rw [hw2] at hb2
            simp only at hb2
            cases e2
            · have hres : lzss_encode_loop config input index (fuel + 1) s
                  = lzss_encode_loop config input (index + 1) fuel s2 := by
                conv_lhs => rw [lzss_encode_loop]
                rw [if_pos hidx, if_neg hm]
                simp only [hw1, hw2]
              rw [hres]
              exact pos_le_comp (pos_le_comp hb1 hb2) (ih (index + 1) s2)
            all_goals
              (have hres : (lzss_encode_loop config input index (fuel + 1) s).2 = s2 := by
                conv_lhs => rw [lzss_encode_loop]
                rw [if_pos hidx, if_neg hm]
                simp only [hw1, hw2]
               rw [hres]
               exact pos_le_comp hb1 hb2)
          all_goals
            (have hres : (lzss_encode_loop config input index (fuel + 1) s).2 = s1 := by
              conv_lhs => rw [lzss_encode_loop]
              rw [if_pos hidx, if_neg hm]
              simp only [hw1]
             rw [hres]
             exact hb1)
      · have hres : lzss_encode_loop config input index (fuel + 1) s = (.allGood, s) := by
          conv_lhs => rw [lzss_encode_loop]
          rw [if_neg hidx]
        rw [hres]
        exact ⟨rfl, fun h => h⟩

/-! ### Helpers for the degenerate zero-width window and encode failure -/

/-- With `max_offset = 0` the candidate window is empty, so the matcher
never finds a match. -/
theorem match_len_ob0 (config : LzssConfig) (input : ArrayT) (index : Nat)
    (h : config.max_offset = 0) :
    (get_longest_match config input index).length = 0 := by
  by_cases hearly : index + config.minimum_length ≥ input.length
  · unfold get_longest_match
    rw [if_pos hearly]
  · have hres : get_longest_match config input index =
        { offset := index -
            (match_scan input.bytes input.length index (window_start config index) 0 0).1,
          length := min
            (match_scan input.bytes input.length index (window_start config index) 0 0).2
            config.max_length } := by
      unfold get_longest_match
      rw [if_neg hearly]
      rfl
    have hwin : window_start config index = index := by
      unfold window_start
      rw [h]
      simp
    have hscan : match_scan input.bytes input.length index index 0 0 = (0, 0) := by
      conv_lhs => rw [match_scan]
      rw [if_neg (by omega)]
    rw [hres, hwin, hscan]
    simp

/-- With an empty window every token is a literal: the token stream of a
buffer slice takes 9 bits per byte. -/
theorem tokensBits_len_ob0 (config : LzssConfig) (input : ArrayT)
    (hob : config.max_offset = 0) (hml : 1 ≤ config.minimum_length) :
    ∀ (fuel index : Nat),
    (tokensBits config (encode_tokens config input fuel index)).length
      = 9 * min fuel (input.length - index) := by
  intro fuel
  induction fuel with
  | zero =>
      intro index
      simp [encode_tokens, tokensBits]
  | succ fuel ih =>
      intro index
      by_cases hidx : index < input.length
      · have hm : ¬ ((get_longest_match config input index).length
            ≥ config.minimum_length) := by
          rw [match_len_ob0 config input index hob]
          omega
        have htoks : encode_tokens config input (fuel + 1) index
            = .lit (input.bytes.getD index 0) :: encode_tokens config input fuel (index + 1) := by
          conv_lhs => rw [encode_tokens]
          rw [if_pos hidx, if_neg hm]
        rw [htoks]
        simp only [tokensBits, tokenBits, List.length_append, List.length_cons,
          length_natBitsBE]
        rw [ih (index + 1)]
        omega
      · have htoks : encode_tokens config input (fuel + 1) index = [] := by
          conv_lhs => rw [encode_tokens]
          rw [if_neg hidx]
        rw [htoks]
        simp only [tokensBits, List.length_nil]
        omega

/-- When the header fits but the token bits overflow the remaining room,
`lzss_encode` reports BufferOutOfBounds and resets the logical length. -/
theorem lzss_encode_fail (config : LzssConfig) (input output : ArrayT)
    (hn : 1 ≤ input.length)
    (hout : output.length ≤ output.bytes.length)
    (hhdr : 8 * (vlqBytes input.length).length ≤ 8 * output.length + 7)
    (hcap : 8 * output.length + 7
        < 8 * (vlqBytes input.length).length
          + (tokensBits config (encode_tokens config input input.length 0)).length) :
    (lzss_encode config input output).1 = .bufferOutOfBounds ∧
    (lzss_encode config input output).2.length = 0 := by
  have hs0 : WfW (bit_stream_init output) := by
    refine ⟨by simp [bit_stream_init], by simp [bit_stream_init],
      by simp [bit_stream_init], by simp [bit_stream_init, hout]⟩
  have hw0 : wLen (bit_stream_init output) = 0 := by simp [wLen, bit_stream_init]
  have hbl0 : (bit_stream_init output).buffer_length = output.length := rfl
  rcases hh : bit_stream_write_7bit_uint32 (bit_stream_init output) input.length with ⟨e1, s1⟩
  have ho1 := write_7bit_ok input.length (bit_stream_init output) hs0
    (by rw [hw0, hbl0]; omega)
  rw [hh] at ho1
  obtain ⟨he1, hwf1, _, hl1, hbl1, _⟩ := ho1
  simp only at he1 hl1 hbl1
  subst he1
  rw [hw0] at hl1
  rcases hloop : lzss_encode_loop config input 0 input.length s1 with ⟨e2, s2⟩
  have hf2 := encode_loop_fail config input input.length 0 s1 hwf1
    (by rw [hl1, hbl1, hbl0]; omega)
  rw [hloop] at hf2
  simp only at hf2
  subst hf2
  have hres : lzss_encode config input output
      = (.bufferOutOfBounds, { bytes := s2.buffer, length := 0 }) := by
    unfold lzss_encode
    rw [if_neg (by omega)]
    simp only [hh, hloop]
  rw [hres]
  exact ⟨rfl, rfl⟩

/-- Bit-count behaviour of one `read_bit`: the byte pull happens exactly
when the accumulator is empty on entry. -/
theorem read_bit_cnt (t : BitStream) (hc : t.bit_count ≤ 8)
    (h : t.bit_count = 0 → t.buffer_position < t.buffer_length) :
    (bit_stream_read_bit t).1 = .allGood ∧
    (bit_stream_read_bit t).2.2.bit_count ≤ 7 ∧
    (t.bit_count = 0 →
      (bit_stream_read_bit t).2.2.buffer_position = t.buffer_position + 1 ∧
      (bit_stream_read_bit t).2.2.bit_count = 7) ∧
    (0 < t.bit_count →
      (bit_stream_read_bit t).2.2.buffer_position = t.buffer_position ∧
      (bit_stream_read_bit t).2.2.bit_count = t.bit_count - 1) := by
  by_cases h0 : t.bit_count = 0
  · have hpos := h h0
    have hres : bit_stream_read_bit t = (.allGood,
        (if (t.buffer.getD t.buffer_position 0).testBit 7 then 1 else 0),
        { t with byte_buffer := t.buffer.getD t.buffer_position 0,
                 buffer_position := t.buffer_position + 1,
                 bit_count := 7 }) := by
      unfold bit_stream_read_bit bit_stream_unflush
      rw [if_pos h0, if_pos hpos]
      rfl
    rw [hres]
    exact ⟨rfl, by norm_num, fun _ => ⟨rfl, rfl⟩, fun hlt => absurd h0 (by omega)⟩
  · have hres : bit_stream_read_bit t = (.allGood,
        (if t.byte_buffer.testBit (t.bit_count - 1) then 1 else 0),
        { t with bit_count := t.bit_count - 1 }) := by
      unfold bit_stream_read_bit
      rw [if_neg h0]
    rw [hres]
    exact ⟨rfl, by simp only []; omega, fun he => absurd he h0, fun _ => ⟨rfl, rfl⟩⟩

/-! ### Claim theorems -/

/-- Claim C1 (amended round trip): with the per-token budget
`1 + offset_bits + length_bits ≤ 9 * minimum_length` and
`input.length < 2^28`, encoding a non-empty buffer into an output
allocated at `lzss_get_upper_bound` succeeds and decoding it back with the
same configuration reproduces the input exactly; an empty buffer makes
`lzss_encode` fail with NoOp, leaving the output untouched. -/
theorem C1_round_trip (ob lb ml : Nat) (input output : ArrayT) (decInit : List Nat)
    (hml : 1 ≤ ml) (hob : ob ≤ 32) (hlb : lb ≤ 32)
    (hbudget : 1 + ob + lb ≤ 9 * ml)
    (hbytes : ∀ b ∈ input.bytes, b < 256)
    (hblen : input.bytes.length = input.length)
    (h28 : input.length < 2 ^ 28)
    (hout : output.length = lzss_get_upper_bound input.length)
    (houtb : output.length ≤ output.bytes.length)
    (hdec : decInit.length = input.length) :
    (1 ≤ input.length →
      (lzss_encode (lzss_config_init ob lb ml) input output).1 = .allGood ∧
      lzss_decode (lzss_config_init ob lb ml)
          (lzss_encode (lzss_config_init ob lb ml) input output).2
          { bytes := decInit, length := input.length }
        = (.allGood, { bytes := input.bytes, length := input.length })) ∧
    (input.length = 0 →
      lzss_encode (lzss_config_init ob lb ml) input output = (.noOp, output)) := by
  constructor
  · intro hn
    exact lzss_round_trip ob lb ml input output decInit hml hob hlb hbytes hblen hn
      (h28.trans (by norm_num)) houtb
      (capacity_ok ob lb ml input hml hbudget h28 output.length (le_of_eq hout.symm)) hdec
  · intro h0
    unfold lzss_encode
    exact if_pos h0

/-- Claim C1 witness: one literal byte round-trips through the codec at
the default configuration. -/
theorem C1_round_trip_witness :
    (lzss_encode (lzss_config_init 10 6 2) ⟨[65], 1⟩ ⟨List.replicate 6 0, 6⟩).1 = .allGood ∧
    lzss_decode (lzss_config_init 10 6 2)
        (lzss_encode (lzss_config_init 10 6 2) ⟨[65], 1⟩ ⟨List.replicate 6 0, 6⟩).2
        { bytes := [0], length := 1 }
      = (.allGood, { bytes := [65], length := 1 }) :=
  (C1_round_trip 10 6 2 ⟨[65], 1⟩ ⟨List.replicate 6 0, 6⟩ [0]
    (by norm_num) (by norm_num) (by norm_num) (by norm_num)
    (by decide) rfl (by decide) (by decide) (by decide) rfl).1 (by decide)

/-- Claim C1 counterexample: configuration (15, 16, 1) satisfies the Config
invariant (`15 + 16 ≤ 31`, `minimum_length ≥ 1`), yet for this 16-byte
buffer the encoder overruns the `lzss_get_upper_bound` allocation (a pair
token costs 32 bits and can replace a 1-byte run), so the round trip does
not reproduce the input. -/
theorem C1_cex :
    lzss_get_upper_bound 16 = 22 ∧
    lzss_decode (lzss_config_init 15 16 1)
      (lzss_encode (lzss_config_init 15 16 1)
        ⟨[0, 1, 0, 2, 0, 3, 0, 4, 0, 5, 0, 6, 0, 7, 0, 8], 16⟩
        ⟨List.replicate 22 0, 22⟩).2
      ⟨List.replicate 16 0, 16⟩
      ≠ (.allGood, ⟨[0, 1, 0, 2, 0, 3, 0, 4, 0, 5, 0, 6, 0, 7, 0, 8], 16⟩) := by
  refine ⟨by decide, ?_⟩
  simp +decide [lzss_encode, bit_stream_write_7bit_uint32, lzss_encode_loop,
    get_longest_match, match_scan, run_len, bit_stream_write_uint32, bit_stream_write_bit,
    bit_stream_flush, lzss_config_init, bit_stream_init, lzss_decode,
    bit_stream_read_7bit_uint32, bit_stream_read_7bit_loop, bit_stream_read_uint32,
    bit_stream_read_uint32_loop, bit_stream_read_bit, bit_stream_unflush,
    lzss_decode_loop, decode_copy]

/-- Claim C2: `bit_stream_write_7bit_uint32` with value 0 writes nothing at
all (the stream is returned unchanged), contradicting the specified
one-zero-byte encoding; reading back at the same position consumes the
next unrelated byte (7 here) instead of reproducing 0. -/
theorem C2_vlq_zero :
    bit_stream_write_7bit_uint32 (bit_stream_init ⟨[7], 1⟩) 0
      = (.allGood, bit_stream_init ⟨[7], 1⟩) ∧
    (bit_stream_read_7bit_uint32 (bit_stream_init ⟨[7], 1⟩)).2.1 = 7 := by
  constructor
  · unfold bit_stream_write_7bit_uint32
    norm_num
  · simp +decide [bit_stream_read_7bit_uint32, bit_stream_read_7bit_loop,
      bit_stream_read_uint32, bit_stream_read_uint32_loop, bit_stream_read_bit,
      bit_stream_unflush, bit_stream_init]

/-- Claim C3 (amended sufficiency): `lzss_get_upper_bound` capacity is
sufficient provided every pair token pays for the bytes it replaces
(`1 + offset_bits + length_bits ≤ 9 * minimum_length`) and the input is
shorter than `2^28` bytes (so the VLQ header fits in the budgeted 32
bits). -/
theorem C3_capacity (ob lb ml : Nat) (input output : ArrayT)
    (hml : 1 ≤ ml) (hbudget : 1 + ob + lb ≤ 9 * ml)
    (hn : 1 ≤ input.length) (h28 : input.length < 2 ^ 28)
    (hub : lzss_get_upper_bound input.length ≤ output.length)
    (houtb : output.length ≤ output.bytes.length) :
    (lzss_encode (lzss_config_init ob lb ml) input output).1 = .allGood :=
  (lzss_encode_ok (lzss_config_init ob lb ml) input output hml hn houtb
    (capacity_ok ob lb ml input hml hbudget h28 output.length hub)).1

/-- Claim C3 witness: the default configuration meets the budget and a
one-byte input encodes successfully into its upper-bound allocation. -/
theorem C3_capacity_witness :
    (lzss_encode (lzss_config_init 10 6 2) ⟨[65], 1⟩ ⟨List.replicate 6 0, 6⟩).1
      = .allGood :=
  C3_capacity 10 6 2 ⟨[65], 1⟩ ⟨List.replicate 6 0, 6⟩
    (by norm_num) (by norm_num) (by decide) (by decide) (by decide) (by decide)

/-- Claim C3 counterexample: with configuration (15, 16, 1) a pair token
takes 33 bits but may replace a single byte, so this 16-byte alternating
buffer overruns the `ceil((32 + 9n)/8)`-byte allocation and `lzss_encode`
fails with BufferOutOfBounds. -/
theorem C3_cex :
    lzss_get_upper_bound 16 = 22 ∧
    (lzss_encode (lzss_config_init 15 16 1)
      ⟨[0, 1, 0, 2, 0, 3, 0, 4, 0, 5, 0, 6, 0, 7, 0, 8], 16⟩
      ⟨List.replicate 22 0, 22⟩).1 = .bufferOutOfBounds := by
  refine ⟨by decide, ?_⟩
  simp +decide [lzss_encode, bit_stream_write_7bit_uint32, lzss_encode_loop,
    get_longest_match, match_scan, run_len, bit_stream_write_uint32, bit_stream_write_bit,
    bit_stream_flush, lzss_config_init, bit_stream_init]

/-- Claim C4 (amended matcher spec): when the early-exit guard does not
fire (`index + minimum_length < input.length`) and the window is
non-empty, the matcher's run length is the maximum candidate run capped at
`max_length`, and the reported offset is the backward distance to the LAST
candidate attaining that maximum (the closest prior occurrence). -/
theorem C4_matcher (config : LzssConfig) (input : ArrayT) (index : Nat)
    (hwin : window_start config index < index)
    (hlate : index + config.minimum_length < input.length) :
    ∃ best j0,
      window_start config index ≤ j0 ∧ j0 < index ∧
      run_len input.bytes input.length j0 index = best ∧
      (∀ j, window_start config index ≤ j → j < index →
        run_len input.bytes input.length j index ≤ best) ∧
      (∀ j, window_start config index ≤ j → j < index →
        run_len input.bytes input.length j index = best → j ≤ j0) ∧
      get_longest_match config input index
        = { offset := index - j0, length := min best config.max_length } := by
  have hidx : index < input.length := by omega
  have hres : get_longest_match config input index =
      { offset := index -
          (match_scan input.bytes input.length index (window_start config index) 0 0).1,
        length := min
          (match_scan input.bytes input.length index (window_start config index) 0 0).2
          config.max_length } := by
    unfold get_longest_match
    rw [if_neg (by omega)]
    rfl
  obtain ⟨hs1, hs2, hs3, hs4⟩ := match_scan_spec input.bytes input.length index
    (index - window_start config index) (window_start config index) 0 0 (le_refl _)
  have hex : ∃ j, window_start config index ≤ j ∧ j < index ∧ j < input.length ∧
      0 ≤ run_len input.bytes input.length j index :=
    ⟨window_start config index, le_refl _, hwin, by omega, Nat.zero_le _⟩
  obtain ⟨g1, g2, g3, g4, g5⟩ := hs3 hex
  refine ⟨(match_scan input.bytes input.length index (window_start config index) 0 0).2,
          (match_scan input.bytes input.length index (window_start config index) 0 0).1,
          g1, g2, g4, ?_, ?_, hres⟩
  · intro j hj1 hj2
    exact hs1 j hj1 hj2 (by omega)
  · intro j hj1 hj2 hj3
    exact g5 j hj1 hj2 (by omega) hj3

/-- Claim C4 witness: on `[5,6,5,6,5,6]` at index 2 the matcher picks the
last best candidate of the window. -/
theorem C4_matcher_witness :
    ∃ best j0,
      window_start (lzss_config_init 10 6 2) 2 ≤ j0 ∧ j0 < 2 ∧
      run_len [5, 6, 5, 6, 5, 6] 6 j0 2 = best ∧
      (∀ j, window_start (lzss_config_init 10 6 2) 2 ≤ j → j < 2 →
        run_len [5, 6, 5, 6, 5, 6] 6 j 2 ≤ best) ∧
      (∀ j, window_start (lzss_config_init 10 6 2) 2 ≤ j → j < 2 →
        run_len [5, 6, 5, 6, 5, 6] 6 j 2 = best → j ≤ j0) ∧
      get_longest_match (lzss_config_init 10 6 2) ⟨[5, 6, 5, 6, 5, 6], 6⟩ 2
        = { offset := 2 - j0,
            length := min best (lzss_config_init 10 6 2).max_length } :=
  C4_matcher (lzss_config_init 10 6 2) ⟨[5, 6, 5, 6, 5, 6], 6⟩ 2 (by decide) (by decide)

/-- Claim C4 counterexample: the claim quantifies over every buffer and
index, but when `index + minimum_length ≥ length` the code returns {0,0}
without scanning: on `[0,0]` at index 1 the window candidate at offset 0
has run length 1, which the returned match (length 0) does not dominate,
and no backward distance is reported. -/
theorem C4_cex :
    get_longest_match (lzss_config_init 10 6 2) ⟨[0, 0], 2⟩ 1 = { offset := 0, length := 0 } ∧
    run_len [0, 0] 2 0 1 = 1 := by
  constructor
  · simp +decide [get_longest_match, lzss_config_init]
  · simp +decide [run_len]

/-- Claim C5 (amended self-overlap round trip): under the capacity budget
and with a non-trivial window (`1 + offset_bits + length_bits ≤ 9 *
minimum_length` forces `offset_bits` sensible; `k < 2^28`), a buffer of
`k > minimum_length` copies of one byte encodes and decodes back to
exactly `k` copies, exercising the decoder's increasing-`i` overlapping
copy (the emitted pair has offset 1 < length). -/
theorem C5_overlap (ob lb ml b k : Nat) (output : ArrayT) (decInit : List Nat)
    (hml : 1 ≤ ml) (hob : ob ≤ 32) (hlb : lb ≤ 32) (hbudget : 1 + ob + lb ≤ 9 * ml)
    (hb : b < 256) (hk1 : ml < k) (hk2 : k < 2 ^ 28)
    (hub : lzss_get_upper_bound k ≤ output.length)
    (houtb : output.length ≤ output.bytes.length)
    (hdec : decInit.length = k) :
    (lzss_encode (lzss_config_init ob lb ml) ⟨List.replicate k b, k⟩ output).1 = .allGood ∧
    lzss_decode (lzss_config_init ob lb ml)
        (lzss_encode (lzss_config_init ob lb ml) ⟨List.replicate k b, k⟩ output).2
        { bytes := decInit, length := k }
      = (.allGood, { bytes := List.replicate k b, length := k }) :=
  lzss_round_trip ob lb ml ⟨List.replicate k b, k⟩ output decInit hml hob hlb
    (by intro x hx; rw [List.eq_of_mem_replicate hx]; exact hb)
    (by simp) (by show 1 ≤ k; omega) (hk2.trans (by norm_num)) houtb
    (capacity_ok ob lb ml ⟨List.replicate k b, k⟩ hml hbudget hk2 output.length hub)
    hdec

/-- Claim C5 witness: ten copies of byte 65 round-trip at the default
configuration; the emitted pair is {offset 1, length 9}, an overlapping
copy. -/
theorem C5_overlap_witness :
    (lzss_encode (lzss_config_init 10 6 2) ⟨List.replicate 10 65, 10⟩
      ⟨List.replicate 16 0, 16⟩).1 = .allGood ∧
    lzss_decode (lzss_config_init 10 6 2)
        (lzss_encode (lzss_config_init 10 6 2) ⟨List.replicate 10 65, 10⟩
          ⟨List.replicate 16 0, 16⟩).2
        { bytes := List.replicate 10 0, length := 10 }
      = (.allGood, { bytes := List.replicate 10 65, length := 10 }) :=
  C5_overlap 10 6 2 65 10 ⟨List.replicate 16 0, 16⟩ (List.replicate 10 0)
    (by norm_num) (by norm_num) (by norm_num) (by norm_num) (by norm_num)
    (by norm_num) (by norm_num) (by decide) (by decide) (by decide)

/-- Claim C5 counterexample: with configuration (0, 31, 1) the window is
empty, every byte is a literal, and `k = 2^28` satisfies
`minimum_length < k ≤ max_length`; yet the VLQ header for `2^28` takes 5
bytes where `lzss_get_upper_bound` budgets 4, the encoder fails with
BufferOutOfBounds, and the round trip does not reproduce the buffer. -/
theorem C5_cex :
    (lzss_config_init 0 31 1).minimum_length < 2 ^ 28 ∧
    2 ^ 28 ≤ (lzss_config_init 0 31 1).max_length ∧
    (lzss_encode (lzss_config_init 0 31 1) ⟨List.replicate (2 ^ 28) 0, 2 ^ 28⟩
      ⟨List.replicate (lzss_get_upper_bound (2 ^ 28)) 0, lzss_get_upper_bound (2 ^ 28)⟩).1
      = .bufferOutOfBounds ∧
    lzss_decode (lzss_config_init 0 31 1)
      (lzss_encode (lzss_config_init 0 31 1) ⟨List.replicate (2 ^ 28) 0, 2 ^ 28⟩
        ⟨List.replicate (lzss_get_upper_bound (2 ^ 28)) 0,
         lzss_get_upper_bound (2 ^ 28)⟩).2
      ⟨List.replicate (2 ^ 28) 0, 2 ^ 28⟩
      ≠ (.allGood, ⟨List.replicate (2 ^ 28) 0, 2 ^ 28⟩) := by
  have hv : (vlqBytes (2 ^ 28)).length = 5 := by
    simp +decide [vlqBytes]
  have hub : lzss_get_upper_bound (2 ^ 28) = 301989892 := by decide
  have hil : (⟨List.replicate (2 ^ 28) 0, 2 ^ 28⟩ : ArrayT).length = 2 ^ 28 := rfl
  have ht := tokensBits_len_ob0 (lzss_config_init 0 31 1)
    ⟨List.replicate (2 ^ 28) 0, 2 ^ 28⟩ (by decide) (by decide) (2 ^ 28) 0
  have hfail := lzss_encode_fail (lzss_config_init 0 31 1)
    ⟨List.replicate (2 ^ 28) 0, 2 ^ 28⟩
    ⟨List.replicate (lzss_get_upper_bound (2 ^ 28)) 0, lzss_get_upper_bound (2 ^ 28)⟩
    (by decide) (by simp)
    (by
      show 8 * (vlqBytes (2 ^ 28)).length ≤ 8 * lzss_get_upper_bound (2 ^ 28) + 7
      rw [hv, hub]
      norm_num)
    (by
      show 8 * lzss_get_upper_bound (2 ^ 28) + 7
          < 8 * (vlqBytes (2 ^ 28)).length
            + (tokensBits (lzss_config_init 0 31 1)
                (encode_tokens (lzss_config_init 0 31 1)
                  ⟨List.replicate (2 ^ 28) 0, 2 ^ 28⟩ (2 ^ 28) 0)).length
      rw [hv, hub, ht, hil]
      norm_num)
  obtain ⟨hf1, hf2⟩ := hfail
  have hdec : lzss_decode (lzss_config_init 0 31 1)
      (lzss_encode (lzss_config_init 0 31 1) ⟨List.replicate (2 ^ 28) 0, 2 ^ 28⟩
        ⟨List.replicate (lzss_get_upper_bound (2 ^ 28)) 0,
         lzss_get_upper_bound (2 ^ 28)⟩).2
      ⟨List.replicate (2 ^ 28) 0, 2 ^ 28⟩
      = (.noOp, ⟨List.replicate (2 ^ 28) 0, 2 ^ 28⟩) := by
    unfold lzss_decode
    rw [if_pos (Or.inl hf2)]
  refine ⟨by decide, by decide, hf1, ?_⟩
  rw [hdec]
  intro hcon
  have hne : Err.noOp = Err.allGood := congrArg Prod.fst hcon
  exact absurd hne (by decide)

/-- Claim C6: the decoder's failure triage — NoOp for an empty compressed
input or a zero-capacity output, WrongOutputSize when the VLQ header
disagrees with the caller's output length — and in both cases the output
array is returned untouched. -/
theorem C6_decode_errors (config : LzssConfig) (input output : ArrayT) :
    ((input.length = 0 ∨ output.length = 0) →
      lzss_decode config input output = (.noOp, output)) ∧
    (1 ≤ input.length → 1 ≤ output.length →
      (bit_stream_read_7bit_uint32 (bit_stream_init input)).1 = .allGood →
      (bit_stream_read_7bit_uint32 (bit_stream_init input)).2.1 ≠ output.length →
      lzss_decode config input output = (.wrongOutputSize, output)) := by
  constructor
  · intro h
    unfold lzss_decode
    exact if_pos h
  · intro hn hm hok hne
    unfold lzss_decode
    rw [if_neg (by omega)]
    rcases hr : bit_stream_read_7bit_uint32 (bit_stream_init input) with ⟨e, v, s1⟩
    rw [hr] at hok hne
    simp only at hok hne
    subst hok
    simp only [hr]
    rw [if_pos hne]

/-- Claim C6 witness: decoding an empty stream yields NoOp, and a stream
declaring 10 bytes into a 3-byte output yields WrongOutputSize, with the
output untouched in both cases. -/
theorem C6_decode_errors_witness :
    lzss_decode (lzss_config_init 10 6 2) ⟨[], 0⟩ ⟨[1], 1⟩ = (.noOp, ⟨[1], 1⟩) ∧
    lzss_decode (lzss_config_init 10 6 2) ⟨[10, 32], 2⟩ ⟨[0, 0, 0], 3⟩
      = (.wrongOutputSize, ⟨[0, 0, 0], 3⟩) :=
  ⟨(C6_decode_errors (lzss_config_init 10 6 2) ⟨[], 0⟩ ⟨[1], 1⟩).1 (Or.inl rfl),
   (C6_decode_errors (lzss_config_init 10 6 2) ⟨[10, 32], 2⟩ ⟨[0, 0, 0], 3⟩).2
     (by decide) (by decide)
     (by simp +decide [bit_stream_read_7bit_uint32, bit_stream_read_7bit_loop,
       bit_stream_read_uint32, bit_stream_read_uint32_loop, bit_stream_read_bit,
       bit_stream_unflush, bit_stream_init])
     (by simp +decide [bit_stream_read_7bit_uint32, bit_stream_read_7bit_loop,
       bit_stream_read_uint32, bit_stream_read_uint32_loop, bit_stream_read_bit,
       bit_stream_unflush, bit_stream_init])⟩

/-- Claim C7 (amended length discipline): an empty input yields NoOp with
the output untouched; any other error resets the output's logical length
to 0; and when `lzss_encode` reports success the reported length is the
final stream position, which never exceeds the allocated capacity.
(The error itself is not always propagated: see the counterexample.) -/
theorem C7_encode_length (config : LzssConfig) (input output : ArrayT) :
    (input.length = 0 → lzss_encode config input output = (.noOp, output)) ∧
    ((lzss_encode config input output).1 ≠ .allGood →
      (lzss_encode config input output).1 ≠ .noOp →
      (lzss_encode config input output).2.length = 0) ∧
    ((lzss_encode config input output).1 = .allGood → 1 ≤ input.length →
      (lzss_encode config input output).2.length ≤ output.length) := by
  by_cases h0 : input.length = 0
  · have hres : lzss_encode config input output = (.noOp, output) := by
      unfold lzss_encode
      exact if_pos h0
    refine ⟨fun _ => hres, fun _ hnn => ?_, fun hall hn => ?_⟩
    · rw [hres] at hnn
      exact absurd rfl hnn
    · omega
  · rcases hh : bit_stream_write_7bit_uint32 (bit_stream_init output) input.length
      with ⟨e1, s1⟩
    have hb1 := pos_le_write_7bit input.length (bit_stream_init output)
    rw [hh] at hb1
    simp only at hb1
    cases e1
    · rcases hloop : lzss_encode_loop config input 0 input.length s1 with ⟨e2, s2⟩
      have hb2 := pos_le_encode_loop config input input.length 0 s1
      rw [hloop] at hb2
      simp only at hb2
      cases e2
      · rcases hfl : bit_stream_flush s2 with ⟨e3, s3⟩
        have hb3 := pos_le_flush s2
        rw [hfl] at hb3
        simp only at hb3
        cases e3
        · have hres : lzss_encode config input output
              = (.allGood, { bytes := s3.buffer, length := s3.buffer_position }) := by
            unfold lzss_encode
            rw [if_neg h0]
            simp only [hh, hloop, hfl]
          refine ⟨fun hc => absurd hc h0, fun hna _ => ?_, fun _ _ => ?_⟩
          · rw [hres] at hna
            exact absurd rfl hna
          · rw [hres]
            show s3.buffer_position ≤ output.length
            have hchain := pos_le_comp (pos_le_comp hb1 hb2) hb3
            have h0pos : (bit_stream_init output).buffer_position
                ≤ (bit_stream_init output).buffer_length := by
              simp [bit_stream_init]
            exact hchain.2 h0pos
        all_goals
          (have hres : lzss_encode config input output
               = ((bit_stream_flush s2).1,
                  { bytes := (bit_stream_flush s2).2.buffer, length := 0 }) := by
             unfold lzss_encode
             rw [if_neg h0]
             simp only [hh, hloop, hfl]
           refine ⟨fun hc => absurd hc h0, fun _ _ => ?_, fun hall _ => ?_⟩
           · rw [hres]
           · rw [hres, hfl] at hall
             simp at hall)
      all_goals
        (have hres : lzss_encode config input output
             = ((lzss_encode_loop config input 0 input.length s1).1,
                { bytes := (lzss_encode_loop config input 0 input.length s1).2.buffer,
                  length := 0 }) := by
           unfold lzss_encode
           rw [if_neg h0]
           simp only [hh, hloop]
         refine ⟨fun hc => absurd hc h0, fun _ _ => ?_, fun hall _ => ?_⟩
         · rw [hres]
         · rw [hres, hloop] at hall
           simp at hall)
    all_goals
      (have hres : lzss_encode config input output
           = ((bit_stream_write_7bit_uint32 (bit_stream_init output) input.length).1,
              { bytes := (bit_stream_write_7bit_uint32
                  (bit_stream_init output) input.length).2.buffer, length := 0 }) := by
         unfold lzss_encode
         rw [if_neg h0]
         simp only [hh]
       refine ⟨fun hc => absurd hc h0, fun _ _ => ?_, fun hall _ => ?_⟩
       · rw [hres]
       · rw [hres, hh] at hall
         simp at hall)

/-- Claim C7 witness: the empty-input arm and the success arm at the
default configuration. -/
theorem C7_encode_length_witness :
    lzss_encode (lzss_config_init 10 6 2) ⟨[], 0⟩ ⟨[9], 1⟩ = (.noOp, ⟨[9], 1⟩) :=
  (C7_encode_length (lzss_config_init 10 6 2) ⟨[], 0⟩ ⟨[9], 1⟩).1 rfl

/-- Claim C7 counterexample: with configuration (12, 3, 2), this 29-byte
input and a zero-capacity output, every write fails — the header byte
write reports BufferOutOfBounds — yet `lzss_encode` returns allGood: the
header write error is discarded inside `bit_stream_write_7bit_uint32`, the
failed flush leaves `bit_count` at 8, and the uint8 counter then wraps
through 256 back to 0 so the final flush is a no-op. -/
theorem C7_cex :
    (bit_stream_write_uint32 (bit_stream_init ⟨[], 0⟩) 29 8).1 = .bufferOutOfBounds ∧
    lzss_encode (lzss_config_init 12 3 2)
      ⟨[0, 1, 2, 3, 4, 5, 6, 7, 8, 9, 10, 11, 12, 13, 14, 15, 16, 17, 18, 19, 20, 21,
        22, 23, 0, 1, 0, 1, 2], 29⟩ ⟨[], 0⟩
      = (.allGood, ⟨[], 0⟩) := by
  constructor
  · decide
  · simp +decide [lzss_encode, bit_stream_write_7bit_uint32, lzss_encode_loop,
      get_longest_match, match_scan, run_len, bit_stream_write_uint32,
      bit_stream_write_bit, bit_stream_flush, lzss_config_init, bit_stream_init]

/-- Claim C8: the concrete scenario of the spec — ten 'A' bytes at
configuration (10, 6, 2) produce the VLQ header byte 10, one literal
token, and one pair token {offset 1, length 9}, and decoding reproduces
the ten bytes. -/
theorem C8_concrete :
    vlqBytes 10 = [10] ∧
    encode_tokens (lzss_config_init 10 6 2) ⟨List.replicate 10 65, 10⟩ 10 0
      = [.lit 65, .pair 1 9] ∧
    lzss_decode (lzss_config_init 10 6 2)
      (lzss_encode (lzss_config_init 10 6 2) ⟨List.replicate 10 65, 10⟩
        ⟨List.replicate 16 0, 16⟩).2
      ⟨List.replicate 10 0, 10⟩
      = (.allGood, ⟨List.replicate 10 65, 10⟩) := by
  refine ⟨by simp +decide [vlqBytes], ?_, ?_⟩
  · simp +decide [encode_tokens, get_longest_match, match_scan, run_len, lzss_config_init]
  · have henc : lzss_encode (lzss_config_init 10 6 2) ⟨List.replicate 10 65, 10⟩
        ⟨List.replicate 16 0, 16⟩
        = (.allGood, ⟨[10, 32, 192, 18, 64, 0, 0, 0, 0, 0, 0, 0, 0, 0, 0, 0], 5⟩) := by
      simp +decide [lzss_encode, bit_stream_write_7bit_uint32, lzss_encode_loop,
        get_longest_match, match_scan, run_len, bit_stream_write_uint32,
        bit_stream_write_bit, bit_stream_flush, lzss_config_init, bit_stream_init]
    rw [henc]
    simp +decide [lzss_decode, bit_stream_read_7bit_uint32, bit_stream_read_7bit_loop,
      bit_stream_read_uint32, bit_stream_read_uint32_loop, bit_stream_read_bit,
      bit_stream_unflush, lzss_decode_loop, decode_copy, lzss_config_init,
      bit_stream_init]

/-- Claim C9 (amended stream invariant): from a well-formed state, every
operation whose bits fit leaves `bit_count` in [0,8] — writes leave it in
[0,7], a fitting flush resets it to 0 — `write_bit` flushes (position
advances, count returns to 0) exactly when the count reaches 8, and
`read_bit` pulls the next byte exactly when the accumulator is empty.
(Without the fit hypotheses the claim fails: see the counterexample,
where the uint8 counter leaves [0,8] after a failed flush.) -/
theorem C9_bit_count (s t : BitStream) (b w n : Nat) (hw : WfW s) (hr : WfR t) :
    (wLen s ≠ 8 * s.buffer_length + 7 →
      (bit_stream_write_bit s b).1 = .allGood ∧
      (bit_stream_write_bit s b).2.bit_count ≤ 7 ∧
      ((bit_stream_write_bit s b).2.bit_count = 0 ↔ s.bit_count = 7) ∧
      ((bit_stream_write_bit s b).2.buffer_position = s.buffer_position + 1
        ↔ s.bit_count = 7)) ∧
    (wLen s + w ≤ 8 * s.buffer_length + 7 →
      (bit_stream_write_uint32 s n w).2.bit_count ≤ 7) ∧
    (wLen s + 8 * (vlqBytes n).length ≤ 8 * s.buffer_length + 7 →
      (bit_stream_write_7bit_uint32 s n).2.bit_count ≤ 7) ∧
    (wLen s ≤ 8 * s.buffer_length → (bit_stream_flush s).2.bit_count = 0) ∧
    (consumed t < 8 * t.buffer_length →
      (bit_stream_read_bit t).2.2.bit_count ≤ 7 ∧
      (t.bit_count = 0 →
        (bit_stream_read_bit t).2.2.buffer_position = t.buffer_position + 1 ∧
        (bit_stream_read_bit t).2.2.bit_count = 7) ∧
      (0 < t.bit_count →
        (bit_stream_read_bit t).2.2.buffer_position = t.buffer_position ∧
        (bit_stream_read_bit t).2.2.bit_count = t.bit_count - 1)) := by
  refine ⟨?_, ?_, ?_, ?_, ?_⟩
  · intro h
    obtain ⟨hok, hwf1, _, hlen, hbl, _⟩ := write_bit_ok s b hw h
    refine ⟨hok, hwf1.1, ?_, ?_⟩
    · have hc := hw.1
      have hc1 := hwf1.1
      simp only [wLen] at hlen
      omega
    · have hc := hw.1
      have hc1 := hwf1.1
      simp only [wLen] at hlen
      omega
  · intro h
    exact ((write_uint32_ok w s n hw h).2.1).1
  · intro h
    exact ((write_7bit_ok n s hw h).2.1).1
  · intro h
    exact (flush_ok s hw h).2.1
  · intro h
    refine (read_bit_cnt t hr.1 ?_).2
    intro h0
    have hcons : consumed t = 8 * t.buffer_position := by
      simp [consumed, h0]
    omega

/-- Claim C9 witness: the very first `write_bit` on a one-byte stream
succeeds, leaves the count at 1, and does not flush. -/
theorem C9_bit_count_witness :
    (bit_stream_write_bit (bit_stream_init ⟨[0], 1⟩) 1).1 = .allGood ∧
    (bit_stream_write_bit (bit_stream_init ⟨[0], 1⟩) 1).2.bit_count ≤ 7 ∧
    ((bit_stream_write_bit (bit_stream_init ⟨[0], 1⟩) 1).2.bit_count = 0
      ↔ (bit_stream_init ⟨[0], 1⟩).bit_count = 7) ∧
    ((bit_stream_write_bit (bit_stream_init ⟨[0], 1⟩) 1).2.buffer_position
        = (bit_stream_init ⟨[0], 1⟩).buffer_position + 1
      ↔ (bit_stream_init ⟨[0], 1⟩).bit_count = 7) :=
  (C9_bit_count (bit_stream_init ⟨[0], 1⟩) (bit_stream_init ⟨[0], 1⟩) 1 8 5
    (by refine ⟨?_, ?_, ?_, ?_⟩ <;> decide)
    (by refine ⟨?_, ?_, ?_, ?_⟩ <;> decide)).1 (by decide)

/-- Claim C9 counterexample: the claim's invariant `bit_count ∈ [0,8]` is
broken by public operations alone — nine `write_bit`s on a zero-capacity
stream leave `bit_count` at 9, because the failed flush returns with the
count still at 8 and the uint8 counter keeps incrementing. -/
theorem C9_cex :
    (bit_stream_write_bit (bit_stream_write_bit (bit_stream_write_bit
      (bit_stream_write_bit (bit_stream_write_bit (bit_stream_write_bit
      (bit_stream_write_bit (bit_stream_write_bit (bit_stream_write_bit
      (bit_stream_init ⟨[], 0⟩) 1).2 1).2 1).2 1).2 1).2 1).2 1).2 1).2
      1).2.bit_count = 9 := by
  decide

/-- Claim C10: every pair token the encoder emits has its fields in range
for their bit widths — `1 ≤ offset ≤ 2^offset_bits - 1` and
`minimum_length ≤ length ≤ 2^length_bits - 1` — so serialising them with
`write_uint32` at `offset_bits`/`length_bits` bits is lossless. -/
theorem C10_pair_fields (ob lb ml : Nat) (input : ArrayT) (index : Nat)
    (hml : 1 ≤ ml)
    (hpair : ml ≤ (get_longest_match (lzss_config_init ob lb ml) input index).length) :
    1 ≤ (get_longest_match (lzss_config_init ob lb ml) input index).offset ∧
    (get_longest_match (lzss_config_init ob lb ml) input index).offset ≤ 2 ^ ob - 1 ∧
    ml ≤ (get_longest_match (lzss_config_init ob lb ml) input index).length ∧
    (get_longest_match (lzss_config_init ob lb ml) input index).length ≤ 2 ^ lb - 1 ∧
    bitsToNat (natBitsBE
        (get_longest_match (lzss_config_init ob lb ml) input index).offset ob)
      = (get_longest_match (lzss_config_init ob lb ml) input index).offset ∧
    bitsToNat (natBitsBE
        (get_longest_match (lzss_config_init ob lb ml) input index).length lb)
      = (get_longest_match (lzss_config_init ob lb ml) input index).length := by
  obtain ⟨h1, h2, h3, h4, h5, h6⟩ := match_ok (lzss_config_init ob lb ml) input index hml hpair
  refine ⟨h1, h3, hpair, h4, ?_, ?_⟩
  · apply bitsToNat_natBitsBE_of_lt
    have hpow : (0 : Nat) < 2 ^ ob := Nat.pos_pow_of_pos ob (by norm_num)
    have h3n : (get_longest_match (lzss_config_init ob lb ml) input index).offset
        ≤ 2 ^ ob - 1 := h3
    omega
  · apply bitsToNat_natBitsBE_of_lt
    have hpow : (0 : Nat) < 2 ^ lb := Nat.pos_pow_of_pos lb (by norm_num)
    have h4n : (get_longest_match (lzss_config_init ob lb ml) input index).length
        ≤ 2 ^ lb - 1 := h4
    omega

/-- Claim C10 witness: the pair emitted at index 1 of ten 'A' bytes has
offset 1 and length 9, both in range and serialised losslessly. -/
theorem C10_pair_fields_witness :
    1 ≤ (get_longest_match (lzss_config_init 10 6 2) ⟨List.replicate 10 65, 10⟩ 1).offset ∧
    (get_longest_match (lzss_config_init 10 6 2)
      ⟨List.replicate 10 65, 10⟩ 1).offset ≤ 2 ^ 10 - 1 ∧
    2 ≤ (get_longest_match (lzss_config_init 10 6 2) ⟨List.replicate 10 65, 10⟩ 1).length ∧
    (get_longest_match (lzss_config_init 10 6 2)
      ⟨List.replicate 10 65, 10⟩ 1).length ≤ 2 ^ 6 - 1 ∧
    bitsToNat (natBitsBE
        (get_longest_match (lzss_config_init 10 6 2) ⟨List.replicate 10 65, 10⟩ 1).offset 10)
      = (get_longest_match (lzss_config_init 10 6 2) ⟨List.replicate 10 65, 10⟩ 1).offset ∧
    bitsToNat (natBitsBE
        (get_longest_match (lzss_config_init 10 6 2) ⟨List.replicate 10 65, 10⟩ 1).length 6)
      = (get_longest_match (lzss_config_init 10 6 2) ⟨List.replicate 10 65, 10⟩ 1).length :=
  C10_pair_fields 10 6 2 ⟨List.replicate 10 65, 10⟩ 1 (by norm_num)
    (by simp +decide [get_longest_match, match_scan, run_len, lzss_config_init])
